import Mathlib

/-!
Verification development for the HTML-to-block parser of `notional`
(`src/notional/parser.py`, class `HtmlParser` and its helpers).

The parser walks an HTML element tree (the tree-with-tail model of
`ElementTree`, as produced by html5lib) and produces a sequence of typed
block values, threading a mutable parser state (title, meta map, base
URL, current link target, current text style, output content list).

The element tree, the text-normalization helpers and the whole dispatch
and rendering logic below are translated directly from
`src/notional/parser.py`.  The block/rich-text model (`blocks.py`,
`text.py`, `types.py` of the notional library) is not part of the
repository sources, so those definitions are modelled from the spec (see
the doc comments starting with "Modelled from the spec").

Python recursion is modelled with an explicit fuel parameter; running
out of fuel yields a distinguished error (mirroring the fact that the
Python original is bounded by the interpreter call stack).  All general
theorems are stated either for all fuel values or with an explicit
sufficient fuel offset.
-/

/-- Whitespace characters as matched by the Python regex class `\s` and by
`str.isspace`/`str.strip` (ASCII range, which is what the parser relies on). -/
def isWs (c : Char) : Bool :=
  c = ' ' || c = '\t' || c = '\n' || c = '\r' || c = Char.ofNat 11 || c = Char.ofNat 12

/-- Kernel of `condense_text`: replace each maximal run of whitespace with a
single space, as `re.sub(r"\s+", " ", text)` does.  The boolean records
whether the previous character was whitespace. -/
def condenseAux : Bool → List Char → List Char
  | _, [] => []
  | prevWs, c :: rest =>
    if isWs c then
      if prevWs then condenseAux true rest
      else ' ' :: condenseAux true rest
    else c :: condenseAux false rest

/-- `condense_text` of `parser.py` (on a present string): collapse whitespace
runs to single spaces; no trimming. -/
def condense_text (s : String) : String := ⟨condenseAux false s.data⟩

/-- `condense_text` including the `None` short-circuit of the source. -/
def condense_textO : Option String → Option String
  | none => none
  | some s => some (condense_text s)

/-- Python `str.strip()`: remove leading and trailing whitespace. -/
def pyStrip (s : String) : String :=
  ⟨((s.data.dropWhile isWs).reverse.dropWhile isWs).reverse⟩

/-- Python `str.isspace()`: true when the string is nonempty and all
whitespace (the empty string is NOT "space"). -/
def pyIsSpace (s : String) : Bool :=
  !s.data.isEmpty && s.data.all isWs

/-- `normalize_text` of `parser.py` (on a present string): strip, then
condense. -/
def normalize_text (s : String) : String := condense_text (pyStrip s)

/-- Modelled from the spec: the `Annotations` style flags of notional
`text.py` (bold / italic / underline / strikethrough / code), the mutable
style overlay carried by the parser. -/
structure Annotations where
  bold : Bool
  italic : Bool
  underline : Bool
  strikethrough : Bool
  code : Bool
deriving DecidableEq

/-- Annotations with every flag off, the state of a fresh parser. -/
def Annotations.plain : Annotations := ⟨false, false, false, false, false⟩

/-- Modelled from the spec: a rich-text run (`TextObject` of notional
`text.py`): display text, optional link target, style snapshot. -/
structure TextObject where
  plain_text : String
  href : Option String
  annotations : Annotations
deriving DecidableEq

/-- Modelled from the spec: `TextObject.from_value` returns `None` for a
`None` input and otherwise materializes a run carrying the given link
target and style snapshot. -/
def TextObject.from_value (t : Option String) (href : Option String)
    (ann : Annotations) : Option TextObject :=
  match t with
  | none => none
  | some s => some ⟨s, href, ann⟩

/-- Modelled from the spec: `lstrip` of notional `text.py` removes leading
whitespace from the text of a run. -/
def lstripText (r : TextObject) : TextObject :=
  { r with plain_text := ⟨r.plain_text.data.dropWhile isWs⟩ }

/-- Modelled from the spec: `rstrip` of notional `text.py` removes trailing
whitespace from the text of a run. -/
def rstripText (r : TextObject) : TextObject :=
  { r with plain_text := ⟨(r.plain_text.data.reverse.dropWhile isWs).reverse⟩ }

/-- One HTML element in the tree-with-tail model used by the parser: tag
name (lowercased by the upstream html5lib tree builder), attribute mapping,
direct text, tail text (the text following the closing tag, owned by the
processing of the parent), and the ordered child elements. -/
inductive Element : Type where
  | mk : String → List (String × String) → Option String → Option String →
      List Element → Element

def Element.tag : Element → String
  | .mk t _ _ _ _ => t

def Element.attrs : Element → List (String × String)
  | .mk _ a _ _ _ => a

def Element.text : Element → Option String
  | .mk _ _ t _ _ => t

def Element.tail : Element → Option String
  | .mk _ _ _ t _ => t

def Element.children : Element → List Element
  | .mk _ _ _ _ c => c

/-- `elem.get(name)`: first matching attribute value, else `None`. -/
def Element.getAttr (e : Element) (name : String) : Option String :=
  match e.attrs.find? (fun kv => kv.1 = name) with
  | none => none
  | some kv => some kv.2

/-- The test `elem.text is not None and not elem.text.isspace()` used by
`elem_has_text` (note that an empty string does count as text, since the
Python `"".isspace()` is false). -/
def textCounts : Option String → Bool
  | none => false
  | some s => !pyIsSpace s

mutual

/-- `elem_has_text(elem)` of `parser.py` with the default
`with_children=True`: the element has direct non-space text, or some child
subtree has text, or some child has non-space tail text. -/
def elemHasText : Element → Bool
  | .mk _ _ t _ cs => textCounts t || elemChildrenHaveText cs

/-- The loop body of `elem_has_text` over the children (recursive check
plus tail check, in source order). -/
def elemChildrenHaveText : List Element → Bool
  | [] => false
  | c :: rest => elemHasText c || textCounts c.tail || elemChildrenHaveText rest

end

/-- `elem_has_text(elem, with_children=False)`: direct text or some child
tail only; child subtrees are not descended into. -/
def elemHasTextShallow (e : Element) : Bool :=
  textCounts e.text || e.children.any (fun c => textCounts c.tail)

mutual

/-- `elem.itertext()`: all text and tail fragments of the subtree in
document order (direct text first, then for each child its own fragments
followed by its tail). -/
def iterTexts : Element → List String
  | .mk _ _ t _ cs =>
    (match t with | none => [] | some s => [s]) ++ iterTextsL cs

def iterTextsL : List Element → List String
  | [] => []
  | c :: rest =>
    iterTexts c ++ (match c.tail with | none => [] | some s => [s]) ++
      iterTextsL rest

end

/-- `gather_text` of `parser.py`: join the `itertext` fragments and
normalize. -/
def gather_text (e : Element) : String :=
  normalize_text (String.join (iterTexts e))

mutual

/-- Structural size of an element, used to compute a sufficient fuel bound
for the recursive walk. -/
def esize : Element → Nat
  | .mk _ _ _ _ cs => 1 + esizeL cs

def esizeL : List Element → Nat
  | [] => 0
  | c :: rest => 1 + esize c + esizeL rest

end

/-- Modelled from the spec: the block model of notional `blocks.py` as the
parser consumes it.  Text-bearing blocks (paragraph, headings 1-3, quote,
code, list items) own an ordered sequence of rich-text runs plus nested
child blocks; a table owns a header-row flag and its child blocks (the
rows); a table row owns its cells (one run per appended cell); divider,
image and embed are leaves. -/
inductive Block : Type where
  | paragraph : List TextObject → List Block → Block
  | heading1 : List TextObject → List Block → Block
  | heading2 : List TextObject → List Block → Block
  | heading3 : List TextObject → List Block → Block
  | quote : List TextObject → List Block → Block
  | code : List TextObject → List Block → Block
  | bulletedListItem : List TextObject → List Block → Block
  | numberedListItem : List TextObject → List Block → Block
  | table : Bool → List Block → Block
  | tableRow : List TextObject → Block
  | divider : Block
  | image : String → Block
  | embed : String → Block

/-- The constructor kind of a block (headers, runs and children ignored). -/
inductive BKind : Type where
  | paragraph | heading1 | heading2 | heading3 | quote | code
  | bulletedListItem | numberedListItem | table | tableRow
  | divider | image | embed
deriving DecidableEq

def Block.kind : Block → BKind
  | .paragraph _ _ => .paragraph
  | .heading1 _ _ => .heading1
  | .heading2 _ _ => .heading2
  | .heading3 _ _ => .heading3
  | .quote _ _ => .quote
  | .code _ _ => .code
  | .bulletedListItem _ _ => .bulletedListItem
  | .numberedListItem _ _ => .numberedListItem
  | .table _ _ => .table
  | .tableRow _ => .tableRow
  | .divider => .divider
  | .image _ => .image
  | .embed _ => .embed

/-- `isinstance(x, blocks.TextBlock)`: the text-bearing block family. -/
def Block.isTextBlock : Block → Bool
  | .paragraph _ _ | .heading1 _ _ | .heading2 _ _ | .heading3 _ _
  | .quote _ _ | .code _ _ | .bulletedListItem _ _ | .numberedListItem _ _ => true
  | _ => false

/-- `isinstance(x, blocks.Code)`. -/
def Block.isCode : Block → Bool
  | .code _ _ => true
  | _ => false

/-- `isinstance(x, blocks.TableRow)`. -/
def Block.isTableRow : Block → Bool
  | .tableRow _ => true
  | _ => false

/-- `isinstance(x, blocks.Table)`. -/
def Block.isTable : Block → Bool
  | .table _ _ => true
  | _ => false

/-- The rich-text runs of a text-bearing block (`block.__text__`). -/
def Block.texts : Block → List TextObject
  | .paragraph ts _ | .heading1 ts _ | .heading2 ts _ | .heading3 ts _
  | .quote ts _ | .code ts _ | .bulletedListItem ts _ | .numberedListItem ts _ => ts
  | .tableRow ts => ts
  | _ => []

/-- The nested child blocks of a block. -/
def Block.childBlocks : Block → List Block
  | .paragraph _ ch | .heading1 _ ch | .heading2 _ ch | .heading3 _ ch
  | .quote _ ch | .code _ ch | .bulletedListItem _ ch | .numberedListItem _ ch => ch
  | .table _ ch => ch
  | _ => []

/-- Modelled from the spec: `Block.append` of notional appends a nested
child block.  Rows own only cells, and leaves own nothing, so appending a
block to them is dropped (never reached on the paths exercised here). -/
def Block.appendChild : Block → Block → Block
  | .paragraph ts ch, b => .paragraph ts (ch ++ [b])
  | .heading1 ts ch, b => .heading1 ts (ch ++ [b])
  | .heading2 ts ch, b => .heading2 ts (ch ++ [b])
  | .heading3 ts ch, b => .heading3 ts (ch ++ [b])
  | .quote ts ch, b => .quote ts (ch ++ [b])
  | .code ts ch, b => .code ts (ch ++ [b])
  | .bulletedListItem ts ch, b => .bulletedListItem ts (ch ++ [b])
  | .numberedListItem ts ch, b => .numberedListItem ts (ch ++ [b])
  | .table h ch, b => .table h (ch ++ [b])
  | b, _ => b

/-- Modelled from the spec: `TextBlock.concat` with a run appends the run
to the rich text of the block; other blocks are unchanged. -/
def Block.concatRun : Block → TextObject → Block
  | .paragraph ts ch, r => .paragraph (ts ++ [r]) ch
  | .heading1 ts ch, r => .heading1 (ts ++ [r]) ch
  | .heading2 ts ch, r => .heading2 (ts ++ [r]) ch
  | .heading3 ts ch, r => .heading3 (ts ++ [r]) ch
  | .quote ts ch, r => .quote (ts ++ [r]) ch
  | .code ts ch, r => .code (ts ++ [r]) ch
  | .bulletedListItem ts ch, r => .bulletedListItem (ts ++ [r]) ch
  | .numberedListItem ts ch, r => .numberedListItem (ts ++ [r]) ch
  | b, _ => b

/-- Modelled from the spec: `TableRow.append` adds one cell holding the
given run; per the spec a non-materialized (null) run is dropped rather
than appended. -/
def Block.appendCell : Block → Option TextObject → Block
  | .tableRow cells, some r => .tableRow (cells ++ [r])
  | b, _ => b

/-- Replace the rich text of a text-bearing block. -/
def Block.withTexts : Block → List TextObject → Block
  | .paragraph _ ch, ts => .paragraph ts ch
  | .heading1 _ ch, ts => .heading1 ts ch
  | .heading2 _ ch, ts => .heading2 ts ch
  | .heading3 _ ch, ts => .heading3 ts ch
  | .quote _ ch, ts => .quote ts ch
  | .code _ ch, ts => .code ts ch
  | .bulletedListItem _ ch, ts => .bulletedListItem ts ch
  | .numberedListItem _ ch, ts => .numberedListItem ts ch
  | b, _ => b

/-- The cell count of a row block (non-rows count 0). -/
def Block.cellCount : Block → Nat
  | .tableRow cells => cells.length
  | _ => 0

/-- Modelled from the spec: `Table.Width`, the derived column count of a
table: the maximum cell count across its rows (0 when there are no rows
with cells). -/
def Block.Width : Block → Nat
  | .table _ ch => ch.foldr (fun r acc => max r.cellCount acc) 0
  | _ => 0

/-- Remove leading whitespace from the first run of a run list (the
`lstrip(block_text[0])` step of `strip_text_block`). -/
def lstripFirst : List TextObject → List TextObject
  | [] => []
  | t :: r => lstripText t :: r

/-- Remove trailing whitespace from the last run of a run list (the
`rstrip(block_text[-1])` step of `strip_text_block`). -/
def rstripLast : List TextObject → List TextObject
  | [] => []
  | [t] => [rstripText t]
  | t :: r => t :: rstripLast r

/-- `strip_text_block` of `parser.py`: on a text-bearing, non-Code block
with at least one run, strip leading whitespace of the first run and
trailing whitespace of the last run; all other blocks are unchanged. -/
def strip_text_block (b : Block) : Block :=
  if !b.isTextBlock then b
  else if b.isCode then b
  else
    match b.texts with
    | [] => b
    | _ => b.withTexts (rstripLast (lstripFirst b.texts))

/-- The parent a render step appends into: either the top-level output
list (`self.content`, when `_render` is called with `parent=None`) or a
block under construction. -/
inductive Parent : Type where
  | root : Parent
  | blk : Block → Parent

def Parent.isTextBlock : Parent → Bool
  | .blk b => b.isTextBlock
  | .root => false

def Parent.isTableRow : Parent → Bool
  | .blk b => b.isTableRow
  | .root => false

def Parent.isTable : Parent → Bool
  | .blk b => b.isTable
  | .root => false

/-- Extract the block from a block parent; the fallback is never reached
on the paths exercised (parents keep their constructor through a render). -/
def Parent.getBlk : Parent → Block → Block
  | .blk b, _ => b
  | .root, d => d

/-- The mutable fields of an `HtmlParser` instance: `title` and `content`
from `DocumentParser.__init__`, and `meta`, `_base_url`, `_current_href`,
`_current_text_style` from `HtmlParser.__init__`. -/
structure ParserState where
  title : Option String
  meta : List (String × String)
  base_url : Option String
  current_href : Option String
  current_text_style : Annotations
  content : List Block

/-- `HtmlParser.__init__(base)`: fresh instance state. -/
def HtmlParser.init (base : Option String) : ParserState :=
  { title := none, meta := [], base_url := base, current_href := none,
    current_text_style := Annotations.plain, content := [] }

/-- `parent.append(block)`: appending to the content list when the parent
is the top-level sequence, into the block otherwise. -/
def Parent.appendB (p : Parent) (st : ParserState) (b : Block) :
    Parent × ParserState :=
  match p with
  | .root => (.root, { st with content := st.content ++ [b] })
  | .blk pb => (.blk (pb.appendChild b), st)

/-- Python dict assignment `self.meta[name] = value`: replace in place if
the key is present, append otherwise. -/
def metaSet : List (String × String) → String → String → List (String × String)
  | [], k, v => [(k, v)]
  | (k', v') :: rest, k, v =>
    if k' = k then (k, v) :: rest else (k', v') :: metaSet rest k v

/-- Python truthiness of an optional string (`if name and value:`): present
and non-empty. -/
def truthy : Option String → Bool
  | none => false
  | some s => s != ""

/-- `_append_text(text, parent)` of `parser.py`: condense the text unless
the parent is a Code block, materialize a run carrying the current link
target and style, concatenate it into a text-bearing parent (skipping a
null run), or append it as a cell of a table-row parent.  Only the parent
changes; the parser state is read, never written. -/
def appendText (text : Option String) (p : Parent) (st : ParserState) : Parent :=
  match p with
  | .root => .root
  | .blk b =>
    let t := if b.isCode then text else condense_textO text
    let obj := TextObject.from_value t st.current_href st.current_text_style
    if b.isTextBlock then
      match obj with
      | some r => .blk (b.concatRun r)
      | none => .blk b
    else if b.isTableRow then .blk (b.appendCell obj)
    else .blk b

/-- Modelled from the spec: `_render_br` appends a literal newline into the
current text content of a text-bearing parent, without creating a new run. -/
def appendNewlineRuns : List TextObject → List TextObject
  | [] => [⟨"\n", none, Annotations.plain⟩]
  | [t] => [{ t with plain_text := t.plain_text ++ "\n" }]
  | t :: r => t :: appendNewlineRuns r

/-- The `_render_br` step on a parent. -/
def brStep : Parent → Parent
  | .root => .root
  | .blk b => if b.isTextBlock then .blk (b.withTexts (appendNewlineRuns b.texts)) else .blk b

/-- The final strip pass at the end of `_process_contents`: strip the
effective parent when it is a text-bearing block. -/
def stripParent : Parent → Parent
  | .root => .root
  | .blk b => if b.isTextBlock then .blk (strip_text_block b) else .blk b

/-- Errors a render can raise: the `TypeError("Invalid parent for <...>")`
structure errors of the table handlers, the `TypeError` raised by the
arity slip in `_render_s`, and fuel exhaustion (the counterpart of the
Python recursion limit). -/
inductive PError : Type where
  | structureError : String → PError
  | arityError : String → PError
  | outOfFuel : PError
deriving DecidableEq

/-- The two list-item kinds requested by `_render_ul`/`_render_ol`. -/
inductive LKind : Type where
  | bulleted | numbered
deriving DecidableEq

def newListItem : LKind → Block
  | .bulleted => .bulletedListItem [] []
  | .numbered => .numberedListItem [] []

/-- `_process_list`: append the pending list item (the most recently
created one) to the outer parent. -/
def flushItem (p : Parent) (cur : Option Block) (st : ParserState) :
    Parent × ParserState :=
  match cur with
  | none => (p, st)
  | some b => Parent.appendB p st b

def setBold (a : Annotations) (v : Bool) : Annotations := { a with bold := v }

def setItalic (a : Annotations) (v : Bool) : Annotations := { a with italic := v }

def setUnderline (a : Annotations) (v : Bool) : Annotations := { a with underline := v }

def setStrikethrough (a : Annotations) (v : Bool) : Annotations := { a with strikethrough := v }

def setCode (a : Annotations) (v : Bool) : Annotations := { a with code := v }

/-- Exit step of a style handler: the flag is set back to `False`
unconditionally (the source does not save and restore the prior value). -/
def styleExit (upd : Annotations → Bool → Annotations)
    (r : Except PError (Parent × ParserState)) :
    Except PError (Parent × ParserState) :=
  r.map (fun q => (q.1, { q.2 with current_text_style := upd q.2.current_text_style false }))

/-- Shared tail of the block-creating handlers (`p`, `blockquote`, `dl`,
`pre`, `h1`-`h3`): append the block built by `_process_contents` to the
parent. -/
def blockFinish (p : Parent) (b0 : Block)
    (r : Except PError (Parent × ParserState)) :
    Except PError (Parent × ParserState) :=
  r.map (fun q => Parent.appendB p q.2 (q.1.getBlk b0))

/-- The handler methods `_render_<tag>` that exist on `HtmlParser`; the
reflective `hasattr`/`getattr` dispatch of `_render` is modelled by
`findHandler` below. -/
inductive Handler : Type where
  | a | b | base | blockquote | body | br | code | dd | del | div | dl | dt
  | em | h1 | h2 | h3 | h4 | h5 | h6 | head | hgroup | hr | html | i
  | iframe | img | ins | kbd | li | menu | meta | object | ol | p | pre
  | s | samp | span | strike | strong | table | tbody | td | tfoot | th
  | thead | title | tr | tt | u | ul | var
deriving DecidableEq

/-- `hasattr(self, f"_render_{elem.tag}")` together with `getattr`: the
tag-keyed lookup of the handler method. -/
def findHandler : String → Option Handler
  | "a" => some .a
  | "b" => some .b
  | "base" => some .base
  | "blockquote" => some .blockquote
  | "body" => some .body
  | "br" => some .br
  | "code" => some .code
  | "dd" => some .dd
  | "del" => some .del
  | "div" => some .div
  | "dl" => some .dl
  | "dt" => some .dt
  | "em" => some .em
  | "h1" => some .h1
  | "h2" => some .h2
  | "h3" => some .h3
  | "h4" => some .h4
  | "h5" => some .h5
  | "h6" => some .h6
  | "head" => some .head
  | "hgroup" => some .hgroup
  | "hr" => some .hr
  | "html" => some .html
  | "i" => some .i
  | "iframe" => some .iframe
  | "img" => some .img
  | "ins" => some .ins
  | "kbd" => some .kbd
  | "li" => some .li
  | "menu" => some .menu
  | "meta" => some .meta
  | "object" => some .object
  | "ol" => some .ol
  | "p" => some .p
  | "pre" => some .pre
  | "s" => some .s
  | "samp" => some .samp
  | "span" => some .span
  | "strike" => some .strike
  | "strong" => some .strong
  | "table" => some .table
  | "tbody" => some .tbody
  | "td" => some .td
  | "tfoot" => some .tfoot
  | "th" => some .th
  | "thead" => some .thead
  | "title" => some .title
  | "tr" => some .tr
  | "tt" => some .tt
  | "u" => some .u
  | "ul" => some .ul
  | "var" => some .var
  | _ => none

mutual

/-- `HtmlParser._render(elem, parent)`: look up a handler for the tag and
invoke it; when no handler exists the element is left untouched (the
source has no else branch, so unknown tags are skipped, not recursed
into). -/
def render : Nat → Element → Parent → ParserState →
    Except PError (Parent × ParserState)
  | 0, _, _, _ => .error .outOfFuel
  | n + 1, e, p, st =>
    match findHandler e.tag with
    | none => .ok (p, st)
    | some h => applyHandler n h e p st

/-- The bodies of the `_render_<tag>` handler methods, one match arm per
method, in the order they appear in the source.  Delegating handlers
(`em`, `h4`-`h6`, `ins`, `kbd`, `menu`, `samp`, `strike`, `strong`,
`th`, `tt`, `var`) re-invoke the target handler; `_render_s` raises the
`TypeError` caused by its extra leading `self` argument before any work
is done. -/
def applyHandler : Nat → Handler → Element → Parent → ParserState →
    Except PError (Parent × ParserState)
  | 0, _, _, _, _ => .error .outOfFuel
  | n + 1, h, e, p, st =>
    match h with
    | .a =>
      (processContents n e p { st with current_href := e.getAttr "href" }).map
        (fun q => (q.1, { q.2 with current_href := none }))
    | .b => styleExit setBold (processContents n e p
        { st with current_text_style := setBold st.current_text_style true })
    | .base =>
      match e.getAttr "href" with
      | some b => .ok (p, { st with base_url := some b })
      | none => .ok (p, st)
    | .blockquote => blockFinish p (.quote [] [])
        (processContents n e (.blk (.quote [] [])) st)
    | .body => processContents n e p st
    | .br => .ok (brStep p, st)
    | .code => styleExit setCode (processContents n e p
        { st with current_text_style := setCode st.current_text_style true })
    | .dd => processContents n e p st
    | .del => styleExit setStrikethrough (processContents n e p
        { st with current_text_style := setStrikethrough st.current_text_style true })
    | .div => processContents n e p st
    | .dl => blockFinish p (.paragraph [] [])
        (processContents n e (.blk (.paragraph [] [])) st)
    | .dt => processContents n e p st
    | .em => applyHandler n .i e p st
    | .h1 => blockFinish p (.heading1 [] [])
        (processContents n e (.blk (.heading1 [] [])) st)
    | .h2 => blockFinish p (.heading2 [] [])
        (processContents n e (.blk (.heading2 [] [])) st)
    | .h3 => blockFinish p (.heading3 [] [])
        (processContents n e (.blk (.heading3 [] [])) st)
    | .h4 => applyHandler n .h3 e p st
    | .h5 => applyHandler n .h3 e p st
    | .h6 => applyHandler n .h3 e p st
    | .head => processContents n e p st
    | .hgroup => processContents n e p st
    | .hr => .ok (Parent.appendB p st .divider)
    | .html => processContents n e p st
    | .i => styleExit setItalic (processContents n e p
        { st with current_text_style := setItalic st.current_text_style true })
    | .iframe =>
      match e.getAttr "src" with
      | some src => .ok (Parent.appendB p st (.embed src))
      | none => .ok (p, st)
    | .img =>
      match e.getAttr "src" with
      | some src => .ok (Parent.appendB p st (.image src))
      | none => .ok (p, st)
    | .ins => applyHandler n .u e p st
    | .kbd => applyHandler n .code e p st
    | .li => processContents n e p st
    | .menu => applyHandler n .ul e p st
    | .meta =>
      let name := e.getAttr "name"
      let value := e.getAttr "content"
      if truthy name && truthy value then
        .ok (p, { st with meta := metaSet st.meta (name.getD "") (value.getD "") })
      else .ok (p, st)
    | .object => processContents n e p st
    | .ol => processList n .numbered e.children p none st
    | .p => blockFinish p (.paragraph [] [])
        (processContents n e (.blk (.paragraph [] [])) st)
    | .pre => blockFinish p (.code [] [])
        (processContents n e (.blk (.code [] [])) st)
    | .s => .error (.arityError
        "_render_del() takes 3 positional arguments but 4 were given")
    | .samp => applyHandler n .code e p st
    | .span => processContents n e p st
    | .strike => applyHandler n .del e p st
    | .strong => applyHandler n .b e p st
    | .table =>
      match processContents n e (.blk (.table false [])) st with
      | .error err => .error err
      | .ok q =>
        let tb := q.1.getBlk (.table false [])
        if tb.Width > 0 then .ok (Parent.appendB p q.2 tb) else .ok (p, q.2)
    | .tbody => processContents n e p st
    | .td => renderTd n e p st
    | .tfoot => processContents n e p st
    | .th => renderTd n e p st
    | .thead =>
      match p with
      | .blk (.table _ ch) => processContents n e (.blk (.table true ch)) st
      | _ => .error (.structureError "Invalid parent for <thead>")
    | .title => .ok (p, { st with title := some (gather_text e) })
    | .tr =>
      match p with
      | .blk (.table hh ch) =>
        match renderChildren n false (e.children.filter (fun c => c.tag == "td"))
            (.blk (.tableRow [])) st with
        | .error err => .error err
        | .ok q =>
          .ok (Parent.appendB (.blk (.table hh ch)) q.2 (q.1.getBlk (.tableRow [])))
      | _ => .error (.structureError "Invalid parent for <tr>")
    | .tt => applyHandler n .pre e p st
    | .u => styleExit setUnderline (processContents n e p
        { st with current_text_style := setUnderline st.current_text_style true })
    | .ul => processList n .bulleted e.children p none st
    | .var => applyHandler n .code e p st

/-- `_render_td` (also reached by `_render_th`): the parent must be a
table row; a cell whose subtree has visible text is processed normally,
an empty cell contributes one empty run so the cell count is kept. -/
def renderTd : Nat → Element → Parent → ParserState →
    Except PError (Parent × ParserState)
  | 0, _, _, _ => .error .outOfFuel
  | n + 1, e, p, st =>
    match p with
    | .blk (.tableRow cells) =>
      if elemHasText e then processContents n e (.blk (.tableRow cells)) st
      else .ok (appendText (some "") (.blk (.tableRow cells)) st, st)
    | _ => .error (.structureError "Invalid parent for <td>")

/-- `_process_contents(elem, parent)`: decide the effective text parent
(skip text handling entirely when the element has no shallow text; use
the parent when it accepts inline text; otherwise synthesize a wrapping
Paragraph), append the direct text, interleave child renders with tail
text, and finally strip the effective parent when it bears text.  The
source appends the synthesized paragraph before filling it; since every
later append of this call targets that paragraph (or deeper), appending
the fully built paragraph at the end is observationally equivalent. -/
def processContents : Nat → Element → Parent → ParserState →
    Except PError (Parent × ParserState)
  | 0, _, _, _ => .error .outOfFuel
  | n + 1, e, p, st =>
    if !elemHasTextShallow e then
      match renderChildren n false e.children p st with
      | .error err => .error err
      | .ok q => .ok (stripParent q.1, q.2)
    else if p.isTextBlock || p.isTableRow then
      match renderChildren n true e.children (appendText e.text p st) st with
      | .error err => .error err
      | .ok q => .ok (stripParent q.1, q.2)
    else
      match renderChildren n true e.children
          (appendText e.text (.blk (.paragraph [] [])) st) st with
      | .error err => .error err
      | .ok q => .ok (Parent.appendB p q.2 ((stripParent q.1).getBlk (.paragraph [] [])))

/-- The child loop of `_process_contents` (and, with text handling off,
of `_render_tr`): render each child into the running parent and, when
text handling is active, append its tail with the style state left by
the child. -/
def renderChildren : Nat → Bool → List Element → Parent → ParserState →
    Except PError (Parent × ParserState)
  | _, _, [], p, st => .ok (p, st)
  | 0, _, _ :: _, _, _ => .error .outOfFuel
  | n + 1, ht, c :: rest, p, st =>
    match render n c p st with
    | .error err => .error err
    | .ok q =>
      renderChildren n ht rest (if ht then appendText c.tail q.1 q.2 else q.1) q.2

/-- `_process_list(elem, parent, kind)`: each `li` child becomes a fresh
item of the requested kind appended to the outer parent; any other child
is rendered into the most recently created item, or into the outer
parent when no item exists yet.  The source appends an item before later
stray children mutate it in place; the pending item `cur` defers that
append until the next item starts (or the loop ends), which is
observationally equivalent because nothing else appends to the outer
parent in between. -/
def processList : Nat → LKind → List Element → Parent → Option Block →
    ParserState → Except PError (Parent × ParserState)
  | _, _, [], p, cur, st => .ok (flushItem p cur st)
  | 0, _, _ :: _, _, _, _ => .error .outOfFuel
  | n + 1, k, c :: rest, p, cur, st =>
    if c.tag == "li" then
      match flushItem p cur st with
      | (p', st') =>
        match render n c (.blk (newListItem k)) st' with
        | .error err => .error err
        | .ok q => processList n k rest p' (some (q.1.getBlk (newListItem k))) q.2
    else
      match cur with
      | some bcur =>
        match render n c (.blk bcur) st with
        | .error err => .error err
        | .ok q => processList n k rest p (some (q.1.getBlk bcur)) q.2
      | none =>
        match render n c p st with
        | .error err => .error err
        | .ok q => processList n k rest q.1 none q.2

end

/-- Fuel bound used by `parse`: generously larger than any chain of
recursive calls the walk over `doc` can make. -/
def fuelFor (doc : Element) : Nat := 8 * esize doc + 8

/-- `HtmlParser.parse(data)`: render the document tree into the instance
state (the content list is the one owned by the instance, and is NOT
reset between calls).  The filename-based title fallback of
`DocumentParser.parse` does not apply to a bare element tree. -/
def HtmlParser.parse (st : ParserState) (doc : Element) :
    Except PError ParserState :=
  match render (fuelFor doc) doc .root st with
  | .error err => .error err
  | .ok q => .ok q.2

/-- The outer parent seen as a block sequence: the content list at the
root, the nested child blocks otherwise. -/
def blocksOf (p : Parent) (st : ParserState) : List Block :=
  match p with
  | .root => st.content
  | .blk b => b.childBlocks

/-- The constructor shape of a parent (none for the root). -/
def pshape : Parent → Option BKind
  | .root => none
  | .blk b => some b.kind

@[simp]
theorem kind_appendChild (b x : Block) : (b.appendChild x).kind = b.kind := by
  cases b <;> rfl

@[simp]
theorem kind_concatRun (b : Block) (r : TextObject) : (b.concatRun r).kind = b.kind := by
  cases b <;> rfl

@[simp]
theorem kind_appendCell (b : Block) (o : Option TextObject) :
    (b.appendCell o).kind = b.kind := by
  cases b <;> cases o <;> rfl

@[simp]
theorem kind_withTexts (b : Block) (ts : List TextObject) :
    (b.withTexts ts).kind = b.kind := by
  cases b <;> rfl

@[simp]
theorem kind_strip (b : Block) : (strip_text_block b).kind = b.kind := by
  unfold strip_text_block
  split
  · rfl
  · split
    · rfl
    · split
      · rfl
      · simp

@[simp]
theorem pshape_appendB (p : Parent) (st : ParserState) (b : Block) :
    pshape (Parent.appendB p st b).1 = pshape p := by
  cases p <;> simp [Parent.appendB, pshape]

@[simp]
theorem pshape_appendText (t : Option String) (p : Parent) (st : ParserState) :
    pshape (appendText t p st) = pshape p := by
  cases p with
  | root => rfl
  | blk b =>
    simp only [appendText]
    split
    · split <;> simp [pshape]
    · split <;> simp [pshape]

@[simp]
theorem pshape_stripParent (p : Parent) : pshape (stripParent p) = pshape p := by
  cases p with
  | root => rfl
  | blk b =>
    simp only [stripParent]
    split <;> simp [pshape]

@[simp]
theorem pshape_brStep (p : Parent) : pshape (brStep p) = pshape p := by
  cases p with
  | root => rfl
  | blk b =>
    simp only [brStep]
    split <;> simp [pshape]

@[simp]
theorem pshape_flushItem (p : Parent) (cur : Option Block) (st : ParserState) :
    pshape (flushItem p cur st).1 = pshape p := by
  cases cur <;> simp [flushItem]

/-- A parent of known shape is a block parent, and `getBlk` recovers its
block (of that kind) for any fallback. -/
theorem blk_of_pshape {p : Parent} {k : BKind} (h : pshape p = some k) (d : Block) :
    p = .blk (p.getBlk d) ∧ (p.getBlk d).kind = k := by
  cases p with
  | root => simp [pshape] at h
  | blk b =>
    simp only [pshape, Option.some.injEq] at h
    exact ⟨rfl, h⟩

/-- From an equation between a pair-valued expression and an explicit pair,
recover the first component. -/
theorem fst_of_pair_eq {α β : Type} {x : α × β} {a : α} {b : β}
    (h : x = (a, b)) : a = x.1 := by rw [h]

/-- From an equation between a pair-valued expression and an explicit pair,
recover the second component. -/
theorem snd_of_pair_eq {α β : Type} {x : α × β} {a : α} {b : β}
    (h : x = (a, b)) : b = x.2 := by rw [h]

/-- Every step of the walk preserves the constructor shape of the parent
it is given: a render returns a parent of the same shape it received. -/
theorem shapeAll : ∀ n : Nat,
    (∀ e p st p' st', render n e p st = .ok (p', st') → pshape p' = pshape p)
    ∧ (∀ hd e p st p' st', applyHandler n hd e p st = .ok (p', st') → pshape p' = pshape p)
    ∧ (∀ e p st p' st', renderTd n e p st = .ok (p', st') → pshape p' = pshape p)
    ∧ (∀ e p st p' st', processContents n e p st = .ok (p', st') → pshape p' = pshape p)
    ∧ (∀ ht cs p st p' st', renderChildren n ht cs p st = .ok (p', st') → pshape p' = pshape p)
    ∧ (∀ k cs p cur st p' st', processList n k cs p cur st = .ok (p', st') → pshape p' = pshape p) := by
  intro n
  induction n with
  | zero =>
    refine ⟨?_, ?_, ?_, ?_, ?_, ?_⟩
    · intro e p st p' st' h; simp [render] at h
    · intro hd e p st p' st' h; simp [applyHandler] at h
    · intro e p st p' st' h; simp [renderTd] at h
    · intro e p st p' st' h; simp [processContents] at h
    · intro ht cs p st p' st' h
      cases cs with
      | nil =>
        simp only [renderChildren, Except.ok.injEq] at h
        rw [fst_of_pair_eq h]
      | cons c rest => simp [renderChildren] at h
    · intro k cs p cur st p' st' h
      cases cs with
      | nil =>
        simp only [processList, Except.ok.injEq] at h
        rw [fst_of_pair_eq h]; simp
      | cons c rest => simp [processList] at h
  | succ n ih =>
    obtain ⟨ihr, ihah, ihtd, ihpc, ihrc, ihpl⟩ := ih
    refine ⟨?_, ?_, ?_, ?_, ?_, ?_⟩
    · -- render
      intro e p st p' st' h
      simp only [render] at h
      split at h
      · simp only [Except.ok.injEq] at h
        rw [fst_of_pair_eq h]
      · exact ihah _ _ _ _ _ _ h
    · -- applyHandler
      intro hd e p st p' st' h
      cases hd
      case a =>
        simp only [applyHandler, styleExit, Except.map] at h
        split at h
        all_goals first
          | exact Except.noConfusion h
          | (rename_i q heq
             obtain ⟨q1, q2⟩ := q
             simp only [Except.ok.injEq, Prod.mk.injEq] at h
             obtain ⟨hp, hs⟩ := h
             subst hp
             exact ihpc _ _ _ _ _ heq)
      case b =>
        simp only [applyHandler, styleExit, Except.map] at h
        split at h
        all_goals first
          | exact Except.noConfusion h
          | (rename_i q heq
             obtain ⟨q1, q2⟩ := q
             simp only [Except.ok.injEq, Prod.mk.injEq] at h
             obtain ⟨hp, hs⟩ := h
             subst hp
             exact ihpc _ _ _ _ _ heq)
      case code =>
        simp only [applyHandler, styleExit, Except.map] at h
        split at h
        all_goals first
          | exact Except.noConfusion h
          | (rename_i q heq
             obtain ⟨q1, q2⟩ := q
             simp only [Except.ok.injEq, Prod.mk.injEq] at h
             obtain ⟨hp, hs⟩ := h
             subst hp
             exact ihpc _ _ _ _ _ heq)
      case del =>
        simp only [applyHandler, styleExit, Except.map] at h
        split at h
        all_goals first
          | exact Except.noConfusion h
          | (rename_i q heq
             obtain ⟨q1, q2⟩ := q
             simp only [Except.ok.injEq, Prod.mk.injEq] at h
             obtain ⟨hp, hs⟩ := h
             subst hp
             exact ihpc _ _ _ _ _ heq)
      case i =>
        simp only [applyHandler, styleExit, Except.map] at h
        split at h
        all_goals first
          | exact Except.noConfusion h
          | (rename_i q heq
             obtain ⟨q1, q2⟩ := q
             simp only [Except.ok.injEq, Prod.mk.injEq] at h
             obtain ⟨hp, hs⟩ := h
             subst hp
             exact ihpc _ _ _ _ _ heq)
      case u =>
        simp only [applyHandler, styleExit, Except.map] at h
        split at h
        all_goals first
          | exact Except.noConfusion h
          | (rename_i q heq
             obtain ⟨q1, q2⟩ := q
             simp only [Except.ok.injEq, Prod.mk.injEq] at h
             obtain ⟨hp, hs⟩ := h
             subst hp
             exact ihpc _ _ _ _ _ heq)
      case blockquote =>
        simp only [applyHandler, blockFinish, Except.map] at h
        split at h
        all_goals first
          | exact Except.noConfusion h
          | (simp only [Except.ok.injEq] at h
             rw [fst_of_pair_eq h]
             simp)
      case dl =>
        simp only [applyHandler, blockFinish, Except.map] at h
        split at h
        all_goals first
          | exact Except.noConfusion h
          | (simp only [Except.ok.injEq] at h
             rw [fst_of_pair_eq h]
             simp)
      case h1 =>
        simp only [applyHandler, blockFinish, Except.map] at h
        split at h
        all_goals first
          | exact Except.noConfusion h
          | (simp only [Except.ok.injEq] at h
             rw [fst_of_pair_eq h]
             simp)
      case h2 =>
        simp only [applyHandler, blockFinish, Except.map] at h
        split at h
        all_goals first
          | exact Except.noConfusion h
          | (simp only [Except.ok.injEq] at h
             rw [fst_of_pair_eq h]
             simp)
      case h3 =>
        simp only [applyHandler, blockFinish, Except.map] at h
        split at h
        all_goals first
          | exact Except.noConfusion h
          | (simp only [Except.ok.injEq] at h
             rw [fst_of_pair_eq h]
             simp)
      case p =>
        simp only [applyHandler, blockFinish, Except.map] at h
        split at h
        all_goals first
          | exact Except.noConfusion h
          | (simp only [Except.ok.injEq] at h
             rw [fst_of_pair_eq h]
             simp)
      case pre =>
        simp only [applyHandler, blockFinish, Except.map] at h
        split at h
        all_goals first
          | exact Except.noConfusion h
          | (simp only [Except.ok.injEq] at h
             rw [fst_of_pair_eq h]
             simp)
      case body =>
        simp only [applyHandler] at h
        exact ihpc _ _ _ _ _ h
      case dd =>
        simp only [applyHandler] at h
        exact ihpc _ _ _ _ _ h
      case div =>
        simp only [applyHandler] at h
        exact ihpc _ _ _ _ _ h
      case dt =>
        simp only [applyHandler] at h
        exact ihpc _ _ _ _ _ h
      case head =>
        simp only [applyHandler] at h
        exact ihpc _ _ _ _ _ h
      case hgroup =>
        simp only [applyHandler] at h
        exact ihpc _ _ _ _ _ h
      case html =>
        simp only [applyHandler] at h
        exact ihpc _ _ _ _ _ h
      case li =>
        simp only [applyHandler] at h
        exact ihpc _ _ _ _ _ h
      case object =>
        simp only [applyHandler] at h
        exact ihpc _ _ _ _ _ h
      case span =>
        simp only [applyHandler] at h
        exact ihpc _ _ _ _ _ h
      case tbody =>
        simp only [applyHandler] at h
        exact ihpc _ _ _ _ _ h
      case tfoot =>
        simp only [applyHandler] at h
        exact ihpc _ _ _ _ _ h
      case em =>
        simp only [applyHandler] at h
        exact ihah _ _ _ _ _ _ h
      case h4 =>
        simp only [applyHandler] at h
        exact ihah _ _ _ _ _ _ h
      case h5 =>
        simp only [applyHandler] at h
        exact ihah _ _ _ _ _ _ h
      case h6 =>
        simp only [applyHandler] at h
        exact ihah _ _ _ _ _ _ h
      case ins =>
        simp only [applyHandler] at h
        exact ihah _ _ _ _ _ _ h
      case kbd =>
        simp only [applyHandler] at h
        exact ihah _ _ _ _ _ _ h
      case menu =>
        simp only [applyHandler] at h
        exact ihah _ _ _ _ _ _ h
      case samp =>
        simp only [applyHandler] at h
        exact ihah _ _ _ _ _ _ h
      case strike =>
        simp only [applyHandler] at h
        exact ihah _ _ _ _ _ _ h
      case strong =>
        simp only [applyHandler] at h
        exact ihah _ _ _ _ _ _ h
      case tt =>
        simp only [applyHandler] at h
        exact ihah _ _ _ _ _ _ h
      case var =>
        simp only [applyHandler] at h
        exact ihah _ _ _ _ _ _ h
      case td =>
        simp only [applyHandler] at h
        exact ihtd _ _ _ _ _ h
      case th =>
        simp only [applyHandler] at h
        exact ihtd _ _ _ _ _ h
      case ol =>
        simp only [applyHandler] at h
        exact ihpl _ _ _ _ _ _ _ h
      case ul =>
        simp only [applyHandler] at h
        exact ihpl _ _ _ _ _ _ _ h
      case base =>
        simp only [applyHandler] at h
        repeat' split at h
        all_goals (simp only [Except.ok.injEq] at h; rw [fst_of_pair_eq h]; try simp)
      case iframe =>
        simp only [applyHandler] at h
        repeat' split at h
        all_goals (simp only [Except.ok.injEq] at h; rw [fst_of_pair_eq h]; try simp)
      case img =>
        simp only [applyHandler] at h
        repeat' split at h
        all_goals (simp only [Except.ok.injEq] at h; rw [fst_of_pair_eq h]; try simp)
      case meta =>
        simp only [applyHandler] at h
        repeat' split at h
        all_goals (simp only [Except.ok.injEq] at h; rw [fst_of_pair_eq h]; try simp)
      case br =>
        simp only [applyHandler] at h
        repeat' split at h
        all_goals (simp only [Except.ok.injEq] at h; rw [fst_of_pair_eq h]; try simp)
      case hr =>
        simp only [applyHandler] at h
        repeat' split at h
        all_goals (simp only [Except.ok.injEq] at h; rw [fst_of_pair_eq h]; try simp)
      case title =>
        simp only [applyHandler] at h
        repeat' split at h
        all_goals (simp only [Except.ok.injEq] at h; rw [fst_of_pair_eq h]; try simp)
      case s =>
        simp only [applyHandler] at h
        exact Except.noConfusion h
      case table =>
        simp only [applyHandler] at h
        split at h
        all_goals first
          | exact Except.noConfusion h
          | (split at h
             all_goals (simp only [Except.ok.injEq] at h; rw [fst_of_pair_eq h]; try simp))
      case thead =>
        simp only [applyHandler] at h
        split at h
        all_goals first
          | exact Except.noConfusion h
          | (refine (ihpc _ _ _ _ _ h).trans ?_
             simp [pshape, Block.kind])
      case tr =>
        simp only [applyHandler] at h
        split at h
        all_goals first
          | exact Except.noConfusion h
          | (split at h
             all_goals first
               | exact Except.noConfusion h
               | (simp only [Except.ok.injEq] at h
                  rw [fst_of_pair_eq h]
                  simp [pshape, Parent.appendB, Block.appendChild, Block.kind]))
    · -- renderTd
      intro e p st p' st' h
      simp only [renderTd] at h
      repeat' split at h
      all_goals first
        | exact Except.noConfusion h
        | exact ihpc _ _ _ _ _ h
        | (simp only [Except.ok.injEq] at h; rw [fst_of_pair_eq h]; try simp)
    · -- processContents
      intro e p st p' st' h
      simp only [processContents] at h
      repeat' split at h
      all_goals first
        | exact Except.noConfusion h
        | (rename_i q heq
           obtain ⟨q1, q2⟩ := q
           simp only [Except.ok.injEq, Prod.mk.injEq] at h
           obtain ⟨hp, hs⟩ := h
           subst hp
           (first
            | (have hrcs := ihrc _ _ _ _ _ _ heq
               simp only [pshape_stripParent]
               simp only [pshape_appendText] at hrcs
               exact hrcs)
            | simp))
        | (simp only [Except.ok.injEq] at h; rw [fst_of_pair_eq h]; try simp)
    · -- renderChildren
      intro ht cs p st p' st' h
      cases cs with
      | nil =>
        simp only [renderChildren, Except.ok.injEq] at h
        rw [fst_of_pair_eq h]
      | cons c rest =>
        simp only [renderChildren] at h
        split at h
        · exact Except.noConfusion h
        · rename_i q heq
          have h2 := ihrc _ _ _ _ _ _ h
          have h1 := ihr _ _ _ _ _ heq
          rw [h2]
          cases ht <;> simp [h1]
    · -- processList
      intro k cs p cur st p' st' h
      cases cs with
      | nil =>
        simp only [processList, Except.ok.injEq] at h
        rw [fst_of_pair_eq h]; simp
      | cons c rest =>
        simp only [processList] at h
        split at h
        · split at h
          · exact Except.noConfusion h
          · rename_i q heq
            have := ihpl _ _ _ _ _ _ _ h
            rw [this]; simp
        · split at h
          · split at h
            · exact Except.noConfusion h
            · exact ihpl _ _ _ _ _ _ _ h
          · split at h
            · exact Except.noConfusion h
            · rename_i q heq
              have := ihpl _ _ _ _ _ _ _ h
              rw [this]
              exact ihr _ _ _ _ _ heq

/-- A parent of some shape is a block parent. -/
theorem blk_exists {p : Parent} {k : BKind} (h : pshape p = some k) :
    ∃ b, p = .blk b := by
  cases p with
  | root => simp [pshape] at h
  | blk b => exact ⟨b, rfl⟩

/-- Appending text to a block parent yields a block parent. -/
theorem appendText_blk (t : Option String) (b : Block) (st : ParserState) :
    ∃ b2, appendText t (.blk b) st = Parent.blk b2 := by
  simp only [appendText]
  split
  · split
    · exact ⟨_, rfl⟩
    · exact ⟨_, rfl⟩
  · split
    · exact ⟨_, rfl⟩
    · exact ⟨_, rfl⟩

/-- Rendering into a block parent never touches the output content list:
all appends stay inside the block. -/
theorem contentBlkAll : ∀ n : Nat,
    (∀ e b st p' st', render n e (.blk b) st = .ok (p', st') → st'.content = st.content)
    ∧ (∀ hd e b st p' st', applyHandler n hd e (.blk b) st = .ok (p', st') → st'.content = st.content)
    ∧ (∀ e b st p' st', renderTd n e (.blk b) st = .ok (p', st') → st'.content = st.content)
    ∧ (∀ e b st p' st', processContents n e (.blk b) st = .ok (p', st') → st'.content = st.content)
    ∧ (∀ ht cs b st p' st', renderChildren n ht cs (.blk b) st = .ok (p', st') → st'.content = st.content)
    ∧ (∀ k cs b cur st p' st', processList n k cs (.blk b) cur st = .ok (p', st') → st'.content = st.content) := by
  intro n
  induction n with
  | zero =>
    refine ⟨?_, ?_, ?_, ?_, ?_, ?_⟩
    · intro e b st p' st' h; simp [render] at h
    · intro hd e b st p' st' h; simp [applyHandler] at h
    · intro e b st p' st' h; simp [renderTd] at h
    · intro e b st p' st' h; simp [processContents] at h
    · intro ht cs b st p' st' h
      cases cs with
      | nil =>
        simp only [renderChildren, Except.ok.injEq] at h
        rw [snd_of_pair_eq h]
      | cons c rest => simp [renderChildren] at h
    · intro k cs b cur st p' st' h
      cases cs with
      | nil =>
        cases cur <;>
          simp only [processList, flushItem, Parent.appendB, Except.ok.injEq] at h <;>
          rw [snd_of_pair_eq h]
      | cons c rest => simp [processList] at h
  | succ n ih =>
    obtain ⟨ihr, ihah, ihtd, ihpc, ihrc, ihpl⟩ := ih
    refine ⟨?_, ?_, ?_, ?_, ?_, ?_⟩
    · -- render
      intro e b st p' st' h
      simp only [render] at h
      split at h
      · simp only [Except.ok.injEq] at h
        rw [snd_of_pair_eq h]
      · exact ihah _ _ _ _ _ _ h
    · -- applyHandler
      intro hd e b st p' st' h
      cases hd
      case s =>
        simp only [applyHandler] at h
        exact Except.noConfusion h
      case body | dd | div | dt | head | hgroup | html | li | object | span | tbody | tfoot =>
        simp only [applyHandler] at h
        exact ihpc _ _ _ _ _ h
      case em | h4 | h5 | h6 | ins | kbd | menu | samp | strike | strong | tt | var =>
        simp only [applyHandler] at h
        exact ihah _ _ _ _ _ _ h
      case td | th =>
        simp only [applyHandler] at h
        exact ihtd _ _ _ _ _ h
      case ol | ul =>
        simp only [applyHandler] at h
        exact ihpl _ _ _ _ _ _ _ h
      case a | b | code | del | i | u =>
        simp only [applyHandler, styleExit, Except.map] at h
        split at h
        all_goals first
          | exact Except.noConfusion h
          | (rename_i q heq
             obtain ⟨q1, q2⟩ := q
             have h2 := ihpc _ _ _ _ _ heq
             simp only [Except.ok.injEq, Prod.mk.injEq] at h
             obtain ⟨hp, hs⟩ := h
             rw [← hs]
             exact h2)
      case blockquote | dl | h1 | h2 | h3 | p | pre =>
        simp only [applyHandler, blockFinish, Except.map] at h
        split at h
        all_goals first
          | exact Except.noConfusion h
          | (rename_i q heq
             obtain ⟨q1, q2⟩ := q
             have h2 := ihpc _ _ _ _ _ heq
             simp only [Parent.appendB, Except.ok.injEq] at h
             rw [snd_of_pair_eq h]
             exact h2)
      case base | iframe | img | meta | br | hr | title =>
        simp only [applyHandler, Parent.appendB] at h
        repeat' split at h
        all_goals (simp only [Except.ok.injEq] at h; rw [snd_of_pair_eq h]; try rfl)
      case table =>
        simp only [applyHandler] at h
        split at h
        all_goals first
          | exact Except.noConfusion h
          | (rename_i q heq
             obtain ⟨q1, q2⟩ := q
             have h2 := ihpc _ _ _ _ _ heq
             split at h
             all_goals simp only [Parent.appendB, Except.ok.injEq] at h
             all_goals rw [snd_of_pair_eq h]
             all_goals exact h2)
      case thead =>
        simp only [applyHandler] at h
        split at h
        all_goals first
          | exact Except.noConfusion h
          | exact ihpc _ _ _ _ _ h
      case tr =>
        simp only [applyHandler] at h
        split at h
        all_goals first
          | exact Except.noConfusion h
          | (split at h
             all_goals first
               | exact Except.noConfusion h
               | (rename_i q heq
                  obtain ⟨q1, q2⟩ := q
                  have h2 := ihrc _ _ _ _ _ _ heq
                  simp only [Parent.appendB, Except.ok.injEq] at h
                  rw [snd_of_pair_eq h]
                  exact h2))
    · -- renderTd
      intro e b st p' st' h
      simp only [renderTd] at h
      repeat' split at h
      all_goals first
        | exact Except.noConfusion h
        | exact ihpc _ _ _ _ _ h
        | (simp only [Except.ok.injEq] at h; rw [snd_of_pair_eq h]; try rfl)
    · -- processContents
      intro e b st p' st' h
      simp only [processContents] at h
      split at h
      · -- no shallow text
        split at h
        · exact Except.noConfusion h
        · rename_i q heq
          obtain ⟨q1, q2⟩ := q
          have h2 := ihrc _ _ _ _ _ _ heq
          simp only [Except.ok.injEq, Prod.mk.injEq] at h
          obtain ⟨hp, hs⟩ := h
          rw [← hs]
          exact h2
      · split at h
        · -- text-accepting parent
          split at h
          · exact Except.noConfusion h
          · rename_i q heq
            obtain ⟨q1, q2⟩ := q
            obtain ⟨b2, hb2⟩ := appendText_blk e.text b st
            rw [hb2] at heq
            have h2 := ihrc _ _ _ _ _ _ heq
            simp only [Except.ok.injEq, Prod.mk.injEq] at h
            obtain ⟨hp, hs⟩ := h
            rw [← hs]
            exact h2
        · -- wrapping paragraph
          split at h
          · exact Except.noConfusion h
          · rename_i q heq
            obtain ⟨q1, q2⟩ := q
            obtain ⟨b2, hb2⟩ := appendText_blk e.text (.paragraph [] []) st
            rw [hb2] at heq
            have h2 := ihrc _ _ _ _ _ _ heq
            simp only [Parent.appendB, Except.ok.injEq] at h
            rw [snd_of_pair_eq h]
            exact h2
    · -- renderChildren
      intro ht cs b st p' st' h
      cases cs with
      | nil =>
        simp only [renderChildren, Except.ok.injEq] at h
        rw [snd_of_pair_eq h]
      | cons c rest =>
        simp only [renderChildren] at h
        split at h
        · exact Except.noConfusion h
        · rename_i q heq
          obtain ⟨q1, q2⟩ := q
          have hsh := (shapeAll n).1 _ _ _ _ _ heq
          simp only [pshape] at hsh
          obtain ⟨b1, hb1⟩ := blk_exists hsh
          subst hb1
          have h1 := ihr _ _ _ _ _ heq
          cases ht with
          | false =>
            simp only [if_neg] at h
            have h2 := ihrc _ _ _ _ _ _ h
            rw [h2, h1]
          | true =>
            simp only [if_pos] at h
            obtain ⟨b2, hb2⟩ := appendText_blk c.tail b1 q2
            rw [hb2] at h
            have h2 := ihrc _ _ _ _ _ _ h
            rw [h2, h1]
    · -- processList
      intro k cs b cur st p' st' h
      cases cs with
      | nil =>
        cases cur <;>
          simp only [processList, flushItem, Parent.appendB, Except.ok.injEq] at h <;>
          rw [snd_of_pair_eq h]
      | cons c rest =>
        simp only [processList] at h
        split at h
        · -- li child
          cases cur <;> simp only [flushItem, Parent.appendB] at h
          all_goals (split at h
                     · exact Except.noConfusion h
                     · rename_i q heq
                       have h1 := ihr _ _ _ _ _ heq
                       have h2 := ihpl _ _ _ _ _ _ _ h
                       rw [h2, h1])
        · split at h
          · -- stray child into pending item
            split at h
            · exact Except.noConfusion h
            · rename_i q heq
              have h1 := ihr _ _ _ _ _ heq
              have h2 := ihpl _ _ _ _ _ _ _ h
              rw [h2, h1]
          · -- stray child into outer parent
            split at h
            · exact Except.noConfusion h
            · rename_i q heq
              obtain ⟨q1, q2⟩ := q
              have hsh := (shapeAll n).1 _ _ _ _ _ heq
              simp only [pshape] at hsh
              obtain ⟨b1, hb1⟩ := blk_exists hsh
              subst hb1
              have h1 := ihr _ _ _ _ _ heq
              have h2 := ihpl _ _ _ _ _ _ _ h
              rw [h2, h1]

/-- Prefix the content list of a render result by `c0` (the shape in which
prior instance content reappears in later renders). -/
def pushC (c0 : List Block) :
    Except PError (Parent × ParserState) → Except PError (Parent × ParserState)
  | .error err => .error err
  | .ok q => .ok (q.1, { q.2 with content := c0 ++ q.2.content })

/-- Appending text reads only the style fields of the state, never the
content list. -/
theorem appendText_content (txt : Option String) (p : Parent) (st : ParserState)
    (cc : List Block) :
    appendText txt p { st with content := cc } = appendText txt p st := by
  cases p <;> rfl

/-- `Parent.appendB` commutes with prefixing the content list. -/
theorem appendB_push (p : Parent) (st : ParserState) (c0 : List Block) (b : Block) :
    Parent.appendB p { st with content := c0 ++ st.content } b
      = ((Parent.appendB p st b).1,
         { (Parent.appendB p st b).2 with
             content := c0 ++ (Parent.appendB p st b).2.content }) := by
  cases p <;> simp [Parent.appendB, List.append_assoc]

/-- `flushItem` commutes with prefixing the content list. -/
theorem flushItem_push (p : Parent) (cur : Option Block) (st : ParserState)
    (c0 : List Block) :
    flushItem p cur { st with content := c0 ++ st.content }
      = ((flushItem p cur st).1,
         { (flushItem p cur st).2 with
             content := c0 ++ (flushItem p cur st).2.content }) := by
  cases cur with
  | none => rfl
  | some b => simp [flushItem, appendB_push]

/-- The exit step of a style handler commutes with content prefixing. -/
theorem styleExit_push (u : Annotations → Bool → Annotations) (c0 : List Block)
    (r : Except PError (Parent × ParserState)) :
    styleExit u (pushC c0 r) = pushC c0 (styleExit u r) := by
  cases r <;> rfl

/-- The block-appending tail of a handler commutes with content prefixing. -/
theorem blockFinish_push (p : Parent) (b0 : Block) (c0 : List Block)
    (r : Except PError (Parent × ParserState)) :
    blockFinish p b0 (pushC c0 r) = pushC c0 (blockFinish p b0 r) := by
  cases r with
  | error err => rfl
  | ok q => simp [blockFinish, Except.map, pushC, appendB_push]

/-- The link-clearing tail of the anchor handler commutes with content
prefixing. -/
theorem hrefExit_push (c0 : List Block) (r : Except PError (Parent × ParserState)) :
    ((pushC c0 r).map (fun q => (q.1, { q.2 with current_href := none })))
      = pushC c0 (r.map (fun q => (q.1, { q.2 with current_href := none }))) := by
  cases r <;> rfl

/-- Content-prefix frame property: a render started with `c0` prefixed to
the content behaves exactly like the render started without it, with `c0`
re-prefixed to the resulting content — rendering only ever appends to the
content list and never reads it. -/
theorem frameAll : ∀ n : Nat,
    (∀ e p st c0, render n e p { st with content := c0 ++ st.content }
        = pushC c0 (render n e p st))
    ∧ (∀ hd e p st c0, applyHandler n hd e p { st with content := c0 ++ st.content }
        = pushC c0 (applyHandler n hd e p st))
    ∧ (∀ e p st c0, renderTd n e p { st with content := c0 ++ st.content }
        = pushC c0 (renderTd n e p st))
    ∧ (∀ e p st c0, processContents n e p { st with content := c0 ++ st.content }
        = pushC c0 (processContents n e p st))
    ∧ (∀ ht cs p st c0, renderChildren n ht cs p { st with content := c0 ++ st.content }
        = pushC c0 (renderChildren n ht cs p st))
    ∧ (∀ k cs p cur st c0, processList n k cs p cur { st with content := c0 ++ st.content }
        = pushC c0 (processList n k cs p cur st)) := by
  intro n
  induction n with
  | zero =>
    refine ⟨?_, ?_, ?_, ?_, ?_, ?_⟩
    · intro e p st c0; rfl
    · intro hd e p st c0; rfl
    · intro e p st c0; rfl
    · intro e p st c0; rfl
    · intro ht cs p st c0
      cases cs <;> rfl
    · intro k cs p cur st c0
      cases cs with
      | nil => simp only [processList, flushItem_push, pushC]
      | cons c rest => rfl
  | succ n ih =>
    obtain ⟨ihr, ihah, ihtd, ihpc, ihrc, ihpl⟩ := ih
    refine ⟨?_, ?_, ?_, ?_, ?_, ?_⟩
    · -- render
      intro e p st c0
      simp only [render]
      cases hf : findHandler e.tag with
      | none => rfl
      | some hd => exact ihah hd e p st c0
    · -- applyHandler
      intro hd e p st c0
      cases hd
      case s => rfl
      case body | dd | div | dt | head | hgroup | html | li | object | span | tbody | tfoot =>
        simp only [applyHandler]
        exact ihpc e p st c0
      case em | h4 | h5 | h6 | ins | kbd | menu | samp | strike | strong | tt | var =>
        simp only [applyHandler]
        exact ihah _ e p st c0
      case td | th =>
        simp only [applyHandler]
        exact ihtd e p st c0
      case ol | ul =>
        simp only [applyHandler]
        exact ihpl _ e.children p none st c0
      case b | code | del | i | u =>
        simp only [applyHandler]
        have A := ihpc e p { st with current_text_style := setBold st.current_text_style true } c0
        have B := ihpc e p { st with current_text_style := setItalic st.current_text_style true } c0
        have C := ihpc e p { st with current_text_style := setUnderline st.current_text_style true } c0
        have D := ihpc e p { st with current_text_style := setStrikethrough st.current_text_style true } c0
        have E := ihpc e p { st with current_text_style := setCode st.current_text_style true } c0
        dsimp only at A B C D E ⊢
        first
        | (rw [A]; exact styleExit_push _ c0 _)
        | (rw [B]; exact styleExit_push _ c0 _)
        | (rw [C]; exact styleExit_push _ c0 _)
        | (rw [D]; exact styleExit_push _ c0 _)
        | (rw [E]; exact styleExit_push _ c0 _)
      case a =>
        simp only [applyHandler]
        have A := ihpc e p { st with current_href := e.getAttr "href" } c0
        dsimp only at A ⊢
        rw [A]
        exact hrefExit_push c0 _
      case blockquote | dl | h1 | h2 | h3 | p | pre =>
        simp only [applyHandler]
        first
        | (rw [ihpc e (.blk (.quote [] [])) st c0]; exact blockFinish_push _ _ c0 _)
        | (rw [ihpc e (.blk (.paragraph [] [])) st c0]; exact blockFinish_push _ _ c0 _)
        | (rw [ihpc e (.blk (.heading1 [] [])) st c0]; exact blockFinish_push _ _ c0 _)
        | (rw [ihpc e (.blk (.heading2 [] [])) st c0]; exact blockFinish_push _ _ c0 _)
        | (rw [ihpc e (.blk (.heading3 [] [])) st c0]; exact blockFinish_push _ _ c0 _)
        | (rw [ihpc e (.blk (.code [] [])) st c0]; exact blockFinish_push _ _ c0 _)
      case base =>
        simp only [applyHandler]
        cases e.getAttr "href" <;> rfl
      case meta =>
        simp only [applyHandler]
        split <;> rfl
      case br => rfl
      case hr =>
        simp only [applyHandler, appendB_push]
        rfl
      case iframe =>
        simp only [applyHandler]
        cases e.getAttr "src" with
        | none => rfl
        | some src => simp only [appendB_push]; rfl
      case img =>
        simp only [applyHandler]
        cases e.getAttr "src" with
        | none => rfl
        | some src => simp only [appendB_push]; rfl
      case title => rfl
      case table =>
        simp only [applyHandler]
        rw [ihpc e (.blk (.table false [])) st c0]
        cases hq : processContents n e (.blk (.table false [])) st with
        | error err => rfl
        | ok q =>
          obtain ⟨q1, q2⟩ := q
          simp only [pushC]
          split
          · simp only [appendB_push]
          · rfl
      case thead =>
        cases p with
        | root => rfl
        | blk b =>
          cases b <;> simp only [applyHandler] <;>
            first
            | rfl
            | exact ihpc e _ st c0
      case tr =>
        cases p with
        | root => rfl
        | blk b =>
          cases b
          case table hh ch =>
            simp only [applyHandler]
            rw [ihrc false (e.children.filter (fun c => c.tag == "td"))
                (.blk (.tableRow [])) st c0]
            cases hq : renderChildren n false (e.children.filter (fun c => c.tag == "td"))
                (.blk (.tableRow [])) st with
            | error err => rfl
            | ok q =>
              obtain ⟨q1, q2⟩ := q
              simp only [pushC, appendB_push]
          all_goals rfl
    · -- renderTd
      intro e p st c0
      cases p with
      | root => rfl
      | blk b =>
        cases b
        case tableRow cells =>
          simp only [renderTd]
          split
          · exact ihpc e _ st c0
          · rw [appendText_content]
            rfl
        all_goals rfl
    · -- processContents
      intro e p st c0
      simp only [processContents]
      split
      · rw [ihrc false e.children p st c0]
        cases hq : renderChildren n false e.children p st with
        | error err => rfl
        | ok q => rfl
      · split
        · rw [appendText_content, ihrc true e.children (appendText e.text p st) st c0]
          cases hq : renderChildren n true e.children (appendText e.text p st) st with
          | error err => rfl
          | ok q => rfl
        · rw [appendText_content,
              ihrc true e.children (appendText e.text (.blk (.paragraph [] [])) st) st c0]
          cases hq : renderChildren n true e.children
              (appendText e.text (.blk (.paragraph [] [])) st) st with
          | error err => rfl
          | ok q =>
            obtain ⟨q1, q2⟩ := q
            simp only [pushC, appendB_push]
    · -- renderChildren
      intro ht cs p st c0
      cases cs with
      | nil => rfl
      | cons c rest =>
        simp only [renderChildren]
        rw [ihr c p st c0]
        cases hq : render n c p st with
        | error err => rfl
        | ok q =>
          obtain ⟨q1, q2⟩ := q
          simp only [pushC]
          cases ht with
          | false => exact ihrc false rest q1 q2 c0
          | true =>
            simp only [appendText_content]
            exact ihrc true rest (appendText c.tail q1 q2) q2 c0
    · -- processList
      intro k cs p cur st c0
      cases cs with
      | nil =>
        simp only [processList, flushItem_push, pushC]
      | cons c rest =>
        simp only [processList]
        split
        · -- li child
          rw [flushItem_push]
          cases hfi : flushItem p cur st with
          | mk p1 st1 =>
            simp only []
            rw [ihr c (.blk (newListItem k)) st1 c0]
            cases hq : render n c (.blk (newListItem k)) st1 with
            | error err => rfl
            | ok q =>
              obtain ⟨q1, q2⟩ := q
              simp only [pushC]
              exact ihpl k rest p1 (some (q1.getBlk (newListItem k))) q2 c0
        · cases cur with
          | some bcur =>
            simp only []
            rw [ihr c (.blk bcur) st c0]
            cases hq : render n c (.blk bcur) st with
            | error err => rfl
            | ok q =>
              obtain ⟨q1, q2⟩ := q
              simp only [pushC]
              exact ihpl k rest p (some (q1.getBlk bcur)) q2 c0
          | none =>
            simp only []
            rw [ihr c p st c0]
            cases hq : render n c p st with
            | error err => rfl
            | ok q =>
              obtain ⟨q1, q2⟩ := q
              simp only [pushC]
              exact ihpl k rest q1 none q2 c0

/-- Structure errors can only originate at the three guarded raise sites
(`_render_thead`, `_render_tr`, `_render_td`): any structure error carries
one of their three messages. -/
theorem classifyAll : ∀ n : Nat,
    (∀ e p st m, render n e p st = .error (.structureError m) →
      m = "Invalid parent for <thead>" ∨ m = "Invalid parent for <tr>" ∨ m = "Invalid parent for <td>")
    ∧ (∀ hd e p st m, applyHandler n hd e p st = .error (.structureError m) →
      m = "Invalid parent for <thead>" ∨ m = "Invalid parent for <tr>" ∨ m = "Invalid parent for <td>")
    ∧ (∀ e p st m, renderTd n e p st = .error (.structureError m) →
      m = "Invalid parent for <thead>" ∨ m = "Invalid parent for <tr>" ∨ m = "Invalid parent for <td>")
    ∧ (∀ e p st m, processContents n e p st = .error (.structureError m) →
      m = "Invalid parent for <thead>" ∨ m = "Invalid parent for <tr>" ∨ m = "Invalid parent for <td>")
    ∧ (∀ ht cs p st m, renderChildren n ht cs p st = .error (.structureError m) →
      m = "Invalid parent for <thead>" ∨ m = "Invalid parent for <tr>" ∨ m = "Invalid parent for <td>")
    ∧ (∀ k cs p cur st m, processList n k cs p cur st = .error (.structureError m) →
      m = "Invalid parent for <thead>" ∨ m = "Invalid parent for <tr>" ∨ m = "Invalid parent for <td>") := by
  intro n
  induction n with
  | zero =>
    refine ⟨?_, ?_, ?_, ?_, ?_, ?_⟩
    · intro e p st m h
      simp only [render] at h
      injection h with h1; exact PError.noConfusion h1
    · intro hd e p st m h
      simp only [applyHandler] at h
      injection h with h1; exact PError.noConfusion h1
    · intro e p st m h
      simp only [renderTd] at h
      injection h with h1; exact PError.noConfusion h1
    · intro e p st m h
      simp only [processContents] at h
      injection h with h1; exact PError.noConfusion h1
    · intro ht cs p st m h
      cases cs with
      | nil => exact Except.noConfusion h
      | cons c rest =>
        simp only [renderChildren] at h
        injection h with h1; exact PError.noConfusion h1
    · intro k cs p cur st m h
      cases cs with
      | nil => exact Except.noConfusion h
      | cons c rest =>
        simp only [processList] at h
        injection h with h1; exact PError.noConfusion h1
  | succ n ih =>
    obtain ⟨ihr, ihah, ihtd, ihpc, ihrc, ihpl⟩ := ih
    refine ⟨?_, ?_, ?_, ?_, ?_, ?_⟩
    · -- render
      intro e p st m h
      simp only [render] at h
      split at h
      · exact Except.noConfusion h
      · exact ihah _ _ _ _ _ h
    · -- applyHandler
      intro hd e p st m h
      cases hd <;>
        (try simp only [applyHandler, styleExit, blockFinish, Except.map] at h) <;>
        (repeat' split at h) <;>
        first
          | exact Except.noConfusion h
          | exact ihpc _ _ _ _ h
          | exact ihah _ _ _ _ _ h
          | exact ihtd _ _ _ _ h
          | exact ihrc _ _ _ _ _ h
          | exact ihpl _ _ _ _ _ _ h
          | exact ihr _ _ _ _ h
          | (injection h with h1; exact PError.noConfusion h1)
          | (injection h with h1; injection h1 with h2; subst h2; decide)
          | (rename_i err heq
             injection h with h1
             rw [h1] at heq
             first
               | exact ihr _ _ _ _ heq
               | exact ihah _ _ _ _ _ heq
               | exact ihtd _ _ _ _ heq
               | exact ihpc _ _ _ _ heq
               | exact ihrc _ _ _ _ _ heq
               | exact ihpl _ _ _ _ _ _ heq)
    · -- renderTd
      intro e p st m h
      simp only [renderTd] at h
      repeat' split at h
      all_goals first
        | exact Except.noConfusion h
        | exact ihpc _ _ _ _ h
        | (injection h with h1; injection h1 with h2; subst h2; decide)
    · -- processContents
      intro e p st m h
      simp only [processContents] at h
      repeat' split at h
      all_goals first
        | exact Except.noConfusion h
        | (rename_i err heq
           injection h with h1
           rw [h1] at heq
           exact ihrc _ _ _ _ _ heq)
    · -- renderChildren
      intro ht cs p st m h
      cases cs with
      | nil => exact Except.noConfusion h
      | cons c rest =>
        simp only [renderChildren] at h
        split at h
        · rename_i err heq
          injection h with h1
          rw [h1] at heq
          exact ihr _ _ _ _ heq
        · exact ihrc _ _ _ _ _ h
    · -- processList
      intro k cs p cur st m h
      cases cs with
      | nil => exact Except.noConfusion h
      | cons c rest =>
        simp only [processList] at h
        repeat' split at h
        all_goals first
          | exact Except.noConfusion h
          | exact ihpl _ _ _ _ _ _ h
          | (rename_i err heq
             injection h with h1
             rw [h1] at heq
             exact ihr _ _ _ _ heq)

mutual

/-- Invariant checked on every completed block of the output: no table of
width 0 anywhere (the emission gate of `_render_table`), recursively
through nested child blocks. -/
def okB : Block → Bool
  | .paragraph _ ch => okL ch
  | .heading1 _ ch => okL ch
  | .heading2 _ ch => okL ch
  | .heading3 _ ch => okL ch
  | .quote _ ch => okL ch
  | .code _ ch => okL ch
  | .bulletedListItem _ ch => okL ch
  | .numberedListItem _ ch => okL ch
  | .table hh ch => (Block.Width (.table hh ch) != 0) && okL ch
  | .tableRow _ => true
  | .divider => true
  | .image _ => true
  | .embed _ => true

def okL : List Block → Bool
  | [] => true
  | b :: r => okB b && okL r

end

/-- The no-empty-table invariant over the output content list of a parser
state. -/
def stOk (st : ParserState) : Bool := okL st.content

/-- The no-empty-table invariant over the completed blocks already placed
inside a parent under construction (the parent itself may still be a
growing table of width 0). -/
def parentOk : Parent → Bool
  | .root => true
  | .blk b => okL b.childBlocks

theorem okL_append (xs ys : List Block) :
    okL (xs ++ ys) = (okL xs && okL ys) := by
  induction xs with
  | nil => simp [okL]
  | cons b r ihx => simp [okL, ihx, Bool.and_assoc]

theorem okB_not_table {b : Block} (h : b.isTable = false) :
    okB b = okL b.childBlocks := by
  cases b <;> simp [Block.isTable, okB, Block.childBlocks, okL] at h ⊢

theorem isTable_iff_kind (b : Block) : b.isTable = true ↔ b.kind = .table := by
  cases b <;> simp [Block.isTable, Block.kind]

theorem kind_table_shape {b : Block} (h : b.kind = .table) :
    ∃ hh ch, b = .table hh ch := by
  cases b <;> simp [Block.kind] at h
  exact ⟨_, _, rfl⟩

@[simp]
theorem childBlocks_concatRun (b : Block) (r : TextObject) :
    (b.concatRun r).childBlocks = b.childBlocks := by
  cases b <;> rfl

@[simp]
theorem childBlocks_appendCell (b : Block) (o : Option TextObject) :
    (b.appendCell o).childBlocks = b.childBlocks := by
  cases b <;> cases o <;> rfl

@[simp]
theorem childBlocks_withTexts (b : Block) (ts : List TextObject) :
    (b.withTexts ts).childBlocks = b.childBlocks := by
  cases b <;> rfl

@[simp]
theorem childBlocks_strip (b : Block) :
    (strip_text_block b).childBlocks = b.childBlocks := by
  unfold strip_text_block
  split
  · rfl
  · split
    · rfl
    · split
      · rfl
      · simp

@[simp]
theorem parentOk_appendText (t : Option String) (p : Parent) (st : ParserState) :
    parentOk (appendText t p st) = parentOk p := by
  cases p with
  | root => rfl
  | blk b =>
    simp only [appendText]
    split
    · split <;> simp [parentOk]
    · split <;> simp [parentOk]

@[simp]
theorem parentOk_stripParent (p : Parent) : parentOk (stripParent p) = parentOk p := by
  cases p with
  | root => rfl
  | blk b =>
    simp only [stripParent]
    split <;> simp [parentOk]

@[simp]
theorem parentOk_brStep (p : Parent) : parentOk (brStep p) = parentOk p := by
  cases p with
  | root => rfl
  | blk b =>
    simp only [brStep]
    split <;> simp [parentOk]

theorem appendChild_ok {b x : Block} (hb : okL b.childBlocks = true)
    (hx : okB x = true) : okL (b.appendChild x).childBlocks = true := by
  cases b <;> simp [Block.appendChild, Block.childBlocks, okL_append, okL] at hb ⊢ <;>
    simp [hb, hx]

/-- Appending a good block to a good parent keeps both invariants. -/
theorem appendB_ok {p : Parent} {st : ParserState} {b : Block}
    (hst : stOk st = true) (hp : parentOk p = true) (hb : okB b = true) :
    stOk (Parent.appendB p st b).2 = true ∧ parentOk (Parent.appendB p st b).1 = true := by
  cases p with
  | root =>
    refine ⟨?_, rfl⟩
    simp only [Parent.appendB, stOk] at hst ⊢
    simp [okL_append, hst, okL, hb]
  | blk pb =>
    refine ⟨hst, ?_⟩
    simp only [Parent.appendB, parentOk] at hp ⊢
    exact appendChild_ok hp hb

theorem shape_render {n : Nat} {e p st p' st'}
    (h : render n e p st = .ok (p', st')) : pshape p' = pshape p :=
  (shapeAll n).1 _ _ _ _ _ h

theorem shape_pc {n : Nat} {e p st p' st'}
    (h : processContents n e p st = .ok (p', st')) : pshape p' = pshape p :=
  (shapeAll n).2.2.2.1 _ _ _ _ _ h

theorem shape_rc {n : Nat} {ht cs p st p' st'}
    (h : renderChildren n ht cs p st = .ok (p', st')) : pshape p' = pshape p :=
  (shapeAll n).2.2.2.2.1 _ _ _ _ _ _ h

theorem content_render_blk {n : Nat} {e b st p' st'}
    (h : render n e (.blk b) st = .ok (p', st')) : st'.content = st.content :=
  (contentBlkAll n).1 _ _ _ _ _ h

/-- A parent that came out of a render with a known non-table shape is a
block parent whose block is not a table and satisfies the invariant as
soon as its placed children do. -/
theorem okB_of_shape {q1 : Parent} {k : BKind} (hsh : pshape q1 = some k)
    (hk : k ≠ BKind.table) (hq1 : parentOk q1 = true) (d : Block) :
    q1 = .blk (q1.getBlk d) ∧ (q1.getBlk d).isTable = false
      ∧ okB (q1.getBlk d) = true := by
  obtain ⟨hb', hkk⟩ := blk_of_pshape hsh d
  have hit : (q1.getBlk d).isTable = false := by
    by_contra hcon
    rw [Bool.not_eq_false] at hcon
    have hkt := (isTable_iff_kind _).mp hcon
    rw [hkk] at hkt
    exact hk hkt
  refine ⟨hb', hit, ?_⟩
  rw [okB_not_table hit]
  rw [hb'] at hq1
  exact hq1

/-- The no-empty-table invariant is preserved by every step of the walk:
given good state and parent, a successful render returns good state and
parent (tables are appended only when their width is positive). -/
theorem invariantAll : ∀ n : Nat,
    (∀ e p st p' st', stOk st = true → parentOk p = true →
      render n e p st = .ok (p', st') → stOk st' = true ∧ parentOk p' = true)
    ∧ (∀ hd e p st p' st', stOk st = true → parentOk p = true →
      applyHandler n hd e p st = .ok (p', st') → stOk st' = true ∧ parentOk p' = true)
    ∧ (∀ e p st p' st', stOk st = true → parentOk p = true →
      renderTd n e p st = .ok (p', st') → stOk st' = true ∧ parentOk p' = true)
    ∧ (∀ e p st p' st', stOk st = true → parentOk p = true →
      processContents n e p st = .ok (p', st') → stOk st' = true ∧ parentOk p' = true)
    ∧ (∀ ht cs p st p' st', stOk st = true → parentOk p = true →
      renderChildren n ht cs p st = .ok (p', st') → stOk st' = true ∧ parentOk p' = true)
    ∧ (∀ k cs p cur st p' st', stOk st = true → parentOk p = true →
      (∀ b0, cur = some b0 → b0.isTable = false ∧ okL b0.childBlocks = true) →
      processList n k cs p cur st = .ok (p', st') → stOk st' = true ∧ parentOk p' = true) := by
  intro n
  induction n with
  | zero =>
    refine ⟨?_, ?_, ?_, ?_, ?_, ?_⟩
    · intro e p st p' st' _ _ h; simp [render] at h
    · intro hd e p st p' st' _ _ h; simp [applyHandler] at h
    · intro e p st p' st' _ _ h; simp [renderTd] at h
    · intro e p st p' st' _ _ h; simp [processContents] at h
    · intro ht cs p st p' st' hst hp h
      cases cs with
      | nil =>
        simp only [renderChildren, Except.ok.injEq] at h
        rw [fst_of_pair_eq h, snd_of_pair_eq h]
        exact ⟨hst, hp⟩
      | cons c rest => simp [renderChildren] at h
    · intro k cs p cur st p' st' hst hp hcur h
      cases cs with
      | nil =>
        simp only [processList] at h
        cases cur with
        | none =>
          simp only [flushItem, Except.ok.injEq] at h
          rw [fst_of_pair_eq h, snd_of_pair_eq h]
          exact ⟨hst, hp⟩
        | some b0 =>
          obtain ⟨hb0t, hb0c⟩ := hcur b0 rfl
          have hokb : okB b0 = true := by rw [okB_not_table hb0t]; exact hb0c
          simp only [flushItem, Except.ok.injEq] at h
          rw [fst_of_pair_eq h, snd_of_pair_eq h]
          exact ⟨(appendB_ok hst hp hokb).1, (appendB_ok hst hp hokb).2⟩
      | cons c rest => simp [processList] at h
  | succ n ih =>
    obtain ⟨ihr, ihah, ihtd, ihpc, ihrc, ihpl⟩ := ih
    refine ⟨?_, ?_, ?_, ?_, ?_, ?_⟩
    · -- render
      intro e p st p' st' hst hp h
      simp only [render] at h
      split at h
      · simp only [Except.ok.injEq] at h
        rw [fst_of_pair_eq h, snd_of_pair_eq h]
        exact ⟨hst, hp⟩
      · exact ihah _ _ _ _ _ _ hst hp h
    · -- applyHandler
      intro hd e p st p' st' hst hp h
      cases hd
      case s =>
        simp only [applyHandler] at h
        exact Except.noConfusion h
      case body | dd | div | dt | head | hgroup | html | li | object | span | tbody | tfoot =>
        simp only [applyHandler] at h
        exact ihpc _ _ _ _ _ hst hp h
      case em | h4 | h5 | h6 | ins | kbd | menu | samp | strike | strong | tt | var =>
        simp only [applyHandler] at h
        exact ihah _ _ _ _ _ _ hst hp h
      case td | th =>
        simp only [applyHandler] at h
        exact ihtd _ _ _ _ _ hst hp h
      case ol | ul =>
        simp only [applyHandler] at h
        refine ihpl _ _ _ none _ _ _ hst hp ?_ h
        intro b0 hb0
        exact Option.noConfusion hb0
      case a | b | code | del | i | u =>
        simp only [applyHandler, styleExit, Except.map] at h
        split at h
        all_goals first
          | exact Except.noConfusion h
          | (rename_i q heq
             obtain ⟨q1, q2⟩ := q
             have hq := ihpc _ _ _ _ _ (by exact hst) (by exact hp) heq
             simp only [Except.ok.injEq, Prod.mk.injEq] at h
             obtain ⟨h1, h2⟩ := h
             subst h1
             rw [← h2]
             exact ⟨hq.1, hq.2⟩)
      case blockquote | dl | h1 | h2 | h3 | p | pre =>
        simp only [applyHandler, blockFinish, Except.map] at h
        split at h
        all_goals first
          | exact Except.noConfusion h
          | (rename_i q heq
             obtain ⟨q1, q2⟩ := q
             have hq := ihpc _ _ _ _ _ (by exact hst) (by rfl) heq
             obtain ⟨hb', hit, hokb⟩ :=
               okB_of_shape (shape_pc heq) (by decide) hq.2 (.quote [] [])
             simp only [Except.ok.injEq] at h
             rw [fst_of_pair_eq h, snd_of_pair_eq h]
             exact appendB_ok hq.1 hp hokb)
          | (rename_i q heq
             obtain ⟨q1, q2⟩ := q
             have hq := ihpc _ _ _ _ _ (by exact hst) (by rfl) heq
             obtain ⟨hb', hit, hokb⟩ :=
               okB_of_shape (shape_pc heq) (by decide) hq.2 (.paragraph [] [])
             simp only [Except.ok.injEq] at h
             rw [fst_of_pair_eq h, snd_of_pair_eq h]
             exact appendB_ok hq.1 hp hokb)
          | (rename_i q heq
             obtain ⟨q1, q2⟩ := q
             have hq := ihpc _ _ _ _ _ (by exact hst) (by rfl) heq
             obtain ⟨hb', hit, hokb⟩ :=
               okB_of_shape (shape_pc heq) (by decide) hq.2 (.heading1 [] [])
             simp only [Except.ok.injEq] at h
             rw [fst_of_pair_eq h, snd_of_pair_eq h]
             exact appendB_ok hq.1 hp hokb)
          | (rename_i q heq
             obtain ⟨q1, q2⟩ := q
             have hq := ihpc _ _ _ _ _ (by exact hst) (by rfl) heq
             obtain ⟨hb', hit, hokb⟩ :=
               okB_of_shape (shape_pc heq) (by decide) hq.2 (.heading2 [] [])
             simp only [Except.ok.injEq] at h
             rw [fst_of_pair_eq h, snd_of_pair_eq h]
             exact appendB_ok hq.1 hp hokb)
          | (rename_i q heq
             obtain ⟨q1, q2⟩ := q
             have hq := ihpc _ _ _ _ _ (by exact hst) (by rfl) heq
             obtain ⟨hb', hit, hokb⟩ :=
               okB_of_shape (shape_pc heq) (by decide) hq.2 (.heading3 [] [])
             simp only [Except.ok.injEq] at h
             rw [fst_of_pair_eq h, snd_of_pair_eq h]
             exact appendB_ok hq.1 hp hokb)
          | (rename_i q heq
             obtain ⟨q1, q2⟩ := q
             have hq := ihpc _ _ _ _ _ (by exact hst) (by rfl) heq
             obtain ⟨hb', hit, hokb⟩ :=
               okB_of_shape (shape_pc heq) (by decide) hq.2 (.code [] [])
             simp only [Except.ok.injEq] at h
             rw [fst_of_pair_eq h, snd_of_pair_eq h]
             exact appendB_ok hq.1 hp hokb)
      case base =>
        simp only [applyHandler] at h
        split at h
        all_goals (simp only [Except.ok.injEq] at h
                   rw [fst_of_pair_eq h, snd_of_pair_eq h]
                   exact ⟨hst, hp⟩)
      case meta =>
        simp only [applyHandler] at h
        split at h
        all_goals (simp only [Except.ok.injEq] at h
                   rw [fst_of_pair_eq h, snd_of_pair_eq h]
                   exact ⟨hst, hp⟩)
      case title =>
        simp only [applyHandler] at h
        simp only [Except.ok.injEq] at h
        rw [fst_of_pair_eq h, snd_of_pair_eq h]
        exact ⟨hst, hp⟩
      case br =>
        simp only [applyHandler] at h
        simp only [Except.ok.injEq] at h
        rw [fst_of_pair_eq h, snd_of_pair_eq h]
        refine ⟨hst, ?_⟩
        rw [parentOk_brStep]
        exact hp
      case hr =>
        simp only [applyHandler] at h
        simp only [Except.ok.injEq] at h
        rw [fst_of_pair_eq h, snd_of_pair_eq h]
        exact appendB_ok hst hp rfl
      case iframe =>
        simp only [applyHandler] at h
        split at h
        all_goals (simp only [Except.ok.injEq] at h
                   rw [fst_of_pair_eq h, snd_of_pair_eq h]
                   first
                     | exact appendB_ok hst hp rfl
                     | exact ⟨hst, hp⟩)
      case img =>
        simp only [applyHandler] at h
        split at h
        all_goals (simp only [Except.ok.injEq] at h
                   rw [fst_of_pair_eq h, snd_of_pair_eq h]
                   first
                     | exact appendB_ok hst hp rfl
                     | exact ⟨hst, hp⟩)
      case table =>
        simp only [applyHandler] at h
        split at h
        · exact Except.noConfusion h
        · rename_i q heq
          obtain ⟨q1, q2⟩ := q
          have hq := ihpc _ _ _ _ _ (by exact hst) (by rfl) heq
          split at h
          · -- width positive: the table is appended
            rename_i hw
            have hsh := shape_pc heq
            obtain ⟨hb', hkk⟩ := blk_of_pshape hsh (.table false [])
            obtain ⟨hh2, ch2, hshape⟩ := kind_table_shape hkk
            have hokb : okB (q1.getBlk (.table false [])) = true := by
              rw [hshape]
              simp only [okB, Bool.and_eq_true, bne_iff_ne]
              constructor
              · rw [hshape] at hw
                omega
              · have hpo := hq.2
                rw [hb'] at hpo
                simp only [parentOk] at hpo
                rw [hshape] at hpo
                exact hpo
            simp only [Except.ok.injEq] at h
            rw [fst_of_pair_eq h, snd_of_pair_eq h]
            exact appendB_ok hq.1 hp hokb
          · -- width 0: dropped
            simp only [Except.ok.injEq] at h
            rw [fst_of_pair_eq h, snd_of_pair_eq h]
            exact ⟨hq.1, hp⟩
      case thead =>
        simp only [applyHandler] at h
        split at h
        · rename_i hh0 ch
          have hq := ihpc _ _ _ _ _ hst ?_ h
          · exact hq
          · simp only [parentOk, Block.childBlocks] at hp ⊢
            exact hp
        · exact Except.noConfusion h
      case tr =>
        simp only [applyHandler] at h
        split at h
        · rename_i hh0 ch
          split at h
          · exact Except.noConfusion h
          · rename_i q heq
            obtain ⟨q1, q2⟩ := q
            have hq := ihrc _ _ _ _ _ _ (by exact hst) (by rfl) heq
            obtain ⟨hb', hit, hokb⟩ :=
              okB_of_shape (shape_rc heq) (by decide) hq.2 (.tableRow [])
            simp only [Except.ok.injEq] at h
            rw [fst_of_pair_eq h, snd_of_pair_eq h]
            exact appendB_ok hq.1 hp hokb
        · exact Except.noConfusion h
    · -- renderTd
      intro e p st p' st' hst hp h
      simp only [renderTd] at h
      repeat' split at h
      all_goals first
        | exact Except.noConfusion h
        | exact ihpc _ _ _ _ _ hst hp h
        | (simp only [Except.ok.injEq] at h
           rw [fst_of_pair_eq h, snd_of_pair_eq h]
           refine ⟨hst, ?_⟩
           rw [parentOk_appendText]
           exact hp)
    · -- processContents
      intro e p st p' st' hst hp h
      simp only [processContents] at h
      split at h
      · split at h
        · exact Except.noConfusion h
        · rename_i q heq
          obtain ⟨q1, q2⟩ := q
          have hq := ihrc _ _ _ _ _ _ (by exact hst) (by exact hp) heq
          simp only [Except.ok.injEq, Prod.mk.injEq] at h
          obtain ⟨h1, h2⟩ := h
          subst h1
          rw [← h2]
          refine ⟨hq.1, ?_⟩
          rw [parentOk_stripParent]
          exact hq.2
      · split at h
        · split at h
          · exact Except.noConfusion h
          · rename_i q heq
            obtain ⟨q1, q2⟩ := q
            have hpa : parentOk (appendText e.text p st) = true := by
              rw [parentOk_appendText]; exact hp
            have hq := ihrc _ _ _ _ _ _ (by exact hst) (by exact hpa) heq
            simp only [Except.ok.injEq, Prod.mk.injEq] at h
            obtain ⟨h1, h2⟩ := h
            subst h1
            rw [← h2]
            refine ⟨hq.1, ?_⟩
            rw [parentOk_stripParent]
            exact hq.2
        · split at h
          · exact Except.noConfusion h
          · rename_i q heq
            obtain ⟨q1, q2⟩ := q
            have hpa : parentOk (appendText e.text (.blk (.paragraph [] [])) st) = true := by
              rw [parentOk_appendText]; rfl
            have hq := ihrc _ _ _ _ _ _ (by exact hst) (by exact hpa) heq
            have hsh : pshape (stripParent q1) = some BKind.paragraph := by
              rw [pshape_stripParent]
              have := shape_rc heq
              rw [this, pshape_appendText]
              rfl
            have hq1s : parentOk (stripParent q1) = true := by
              rw [parentOk_stripParent]; exact hq.2
            obtain ⟨hb', hit, hokb⟩ :=
              okB_of_shape hsh (by decide) hq1s (.paragraph [] [])
            simp only [Except.ok.injEq] at h
            rw [fst_of_pair_eq h, snd_of_pair_eq h]
            exact appendB_ok hq.1 hp hokb
    · -- renderChildren
      intro ht cs p st p' st' hst hp h
      cases cs with
      | nil =>
        simp only [renderChildren, Except.ok.injEq] at h
        rw [fst_of_pair_eq h, snd_of_pair_eq h]
        exact ⟨hst, hp⟩
      | cons c rest =>
        simp only [renderChildren] at h
        split at h
        · exact Except.noConfusion h
        · rename_i q heq
          obtain ⟨q1, q2⟩ := q
          have hq := ihr _ _ _ _ _ (by exact hst) (by exact hp) heq
          cases ht with
          | false =>
            simp only [Bool.false_eq_true, if_neg] at h
            exact ihrc _ _ _ _ _ _ hq.1 hq.2 h
          | true =>
            simp only [if_pos] at h
            have hpa : parentOk (appendText c.tail q1 q2) = true := by
              rw [parentOk_appendText]; exact hq.2
            exact ihrc _ _ _ _ _ _ hq.1 hpa h
    · -- processList
      intro k cs p cur st p' st' hst hp hcur h
      cases cs with
      | nil =>
        simp only [processList] at h
        cases cur with
        | none =>
          simp only [flushItem, Except.ok.injEq] at h
          rw [fst_of_pair_eq h, snd_of_pair_eq h]
          exact ⟨hst, hp⟩
        | some b0 =>
          obtain ⟨hb0t, hb0c⟩ := hcur b0 rfl
          have hokb : okB b0 = true := by rw [okB_not_table hb0t]; exact hb0c
          simp only [flushItem, Except.ok.injEq] at h
          rw [fst_of_pair_eq h, snd_of_pair_eq h]
          exact appendB_ok hst hp hokb
      | cons c rest =>
        simp only [processList] at h
        split at h
        · -- li child
          have hflush : stOk (flushItem p cur st).2 = true
              ∧ parentOk (flushItem p cur st).1 = true := by
            cases cur with
            | none => exact ⟨hst, hp⟩
            | some b0 =>
              obtain ⟨hb0t, hb0c⟩ := hcur b0 rfl
              have hokb : okB b0 = true := by rw [okB_not_table hb0t]; exact hb0c
              exact appendB_ok hst hp hokb
          split at h
          · exact Except.noConfusion h
          · rename_i q heq
            obtain ⟨q1, q2⟩ := q
            have hq := ihr _ _ _ _ _ (by exact hflush.1) (by cases k <;> rfl) heq
            obtain ⟨hb', hit, hokb⟩ :=
              okB_of_shape (shape_render heq) (by cases k <;> decide) hq.2 (newListItem k)
            refine ihpl _ _ _ _ _ _ _ hq.1 hflush.2 ?_ h
            intro b0 hb0
            rw [Option.some.injEq] at hb0
            subst hb0
            refine ⟨hit, ?_⟩
            rw [← okB_not_table hit]
            exact hokb
        · split at h
          case _ bcur =>
            split at h
            · exact Except.noConfusion h
            · rename_i q heq
              obtain ⟨hbt, hbc⟩ := hcur bcur rfl
              obtain ⟨q1, q2⟩ := q
              have hq := ihr _ _ _ _ _ (by exact hst) (by exact hbc) heq
              have hks : pshape q1 = some bcur.kind := by
                rw [shape_render heq]; rfl
              have hkt : bcur.kind ≠ BKind.table := by
                intro hcon
                rw [← isTable_iff_kind] at hcon
                rw [hbt] at hcon
                exact Bool.noConfusion hcon
              obtain ⟨hb', hit, hokb⟩ := okB_of_shape hks hkt hq.2 bcur
              refine ihpl _ _ _ _ _ _ _ hq.1 hp ?_ h
              intro b0 hb0
              rw [Option.some.injEq] at hb0
              subst hb0
              refine ⟨hit, ?_⟩
              rw [← okB_not_table hit]
              exact hokb
          case _ =>
            split at h
            · exact Except.noConfusion h
            · rename_i q heq
              obtain ⟨q1, q2⟩ := q
              have hq := ihr _ _ _ _ _ (by exact hst) (by exact hp) heq
              refine ihpl _ _ _ _ _ _ _ hq.1 hq.2 ?_ h
              intro b0 hb0
              exact Option.noConfusion hb0

/-- C1 (counterexample): the claim says an element with an unhandled tag is
processed transparently, so its direct text still contributes to the
output.  On the code, `_render` has no else branch: a `widget` element
carrying direct text "B" renders to an unchanged parent and state — the
text contributes nothing. -/
theorem C1_counterexample :
    Element.text (.mk "widget" [] (some "B") none []) = some "B"
    ∧ findHandler "widget" = none
    ∧ render 5 (.mk "widget" [] (some "B") none []) .root (HtmlParser.init none)
        = .ok (.root, HtmlParser.init none) :=
  ⟨rfl, rfl, rfl⟩

/-- C1 (amended): rendering an element whose lowercased tag has no handler
in the dispatch table raises no error but performs NO default action: the
element is skipped whole (its direct text and children contribute
nothing), while its tail text still contributes through the parent's
child loop. -/
theorem C1_unknown_tag_skipped :
    (∀ (n : Nat) (e : Element) (p : Parent) (st : ParserState),
      findHandler e.tag = none → render (n + 1) e p st = .ok (p, st))
    ∧ (∀ (n : Nat) (c : Element) (p : Parent) (st : ParserState),
      findHandler c.tag = none →
      renderChildren (n + 2) true [c] p st = .ok (appendText c.tail p st, st)) := by
  constructor
  · intro n e p st h
    simp only [render, h]
  · intro n c p st h
    simp only [renderChildren, render, h, if_pos]

/-- C1 (witness): the amended theorem applied at a concrete unknown tag. -/
theorem C1_witness :
    render 3 (.mk "article" [] (some "T") none []) .root (HtmlParser.init none)
        = .ok (.root, HtmlParser.init none)
    ∧ renderChildren 4 true [.mk "article" [] (some "T") (some "Z") []]
        (.blk (.paragraph [] [])) (HtmlParser.init none)
        = .ok (appendText (some "Z") (.blk (.paragraph [] [])) (HtmlParser.init none),
            HtmlParser.init none) :=
  ⟨C1_unknown_tag_skipped.1 2 (.mk "article" [] (some "T") none []) .root
      (HtmlParser.init none) rfl,
   C1_unknown_tag_skipped.2 2 (.mk "article" [] (some "T") (some "Z") [])
      (.blk (.paragraph [] [])) (HtmlParser.init none) rfl⟩

/-- C2 (counterexample): the claim says that in `<b>X<b>Y</b>Z</b>` the
text Z after the inner close keeps bold set.  On the code, the inner
handler clears the flag unconditionally on exit, so the run Z is NOT
bold. -/
theorem C2_counterexample :
    render 20 (.mk "b" [] (some "X") none [.mk "b" [] (some "Y") (some "Z") []])
        (.blk (.paragraph [] [])) (HtmlParser.init none)
      = .ok (.blk (.paragraph
          [⟨"X", none, ⟨true, false, false, false, false⟩⟩,
           ⟨"Y", none, ⟨true, false, false, false, false⟩⟩,
           ⟨"Z", none, ⟨false, false, false, false, false⟩⟩] []),
          HtmlParser.init none) := rfl

/-- C3 (counterexample): the claim says no content carries over between
parse invocations.  On the code, `parse` never resets the instance's
content list, so a second parse of the same document appends a second
copy of its blocks: the two invocations give structurally different
output. -/
theorem C3_counterexample :
    HtmlParser.parse (HtmlParser.init none)
        (.mk "html" [] none none
          [.mk "body" [] none none [.mk "p" [] (some "x") none []]])
      = .ok { title := none, meta := [], base_url := none, current_href := none,
              current_text_style := Annotations.plain,
              content := [.paragraph [⟨"x", none, Annotations.plain⟩] []] }
    ∧ HtmlParser.parse
        { title := none, meta := [], base_url := none, current_href := none,
          current_text_style := Annotations.plain,
          content := [.paragraph [⟨"x", none, Annotations.plain⟩] []] }
        (.mk "html" [] none none
          [.mk "body" [] none none [.mk "p" [] (some "x") none []]])
      = .ok { title := none, meta := [], base_url := none, current_href := none,
              current_text_style := Annotations.plain,
              content := [.paragraph [⟨"x", none, Annotations.plain⟩] [],
                          .paragraph [⟨"x", none, Annotations.plain⟩] []] }
    ∧ ¬([Block.paragraph [⟨"x", none, Annotations.plain⟩] [],
         Block.paragraph [⟨"x", none, Annotations.plain⟩] []].length
        = [Block.paragraph [⟨"x", none, Annotations.plain⟩] []].length) :=
  ⟨rfl, rfl, by decide⟩

/-- C3 (amended): `parse` is a pure function of the instance state and the
input, and it only appends: parsing with prior content equals parsing
with empty content and re-prefixing the prior content.  Hence fresh
instances give identical output for identical input, while a second parse
on the same instance appends a second copy after the first. -/
theorem C3_parse_appends (doc : Element) (st : ParserState) :
    HtmlParser.parse st doc
      = (HtmlParser.parse { st with content := [] } doc).map
          (fun s => { s with content := st.content ++ s.content }) := by
  unfold HtmlParser.parse
  have A := (frameAll (fuelFor doc)).1 doc .root { st with content := [] } st.content
  simp only [List.append_nil] at A
  rw [A]
  cases render (fuelFor doc) doc .root { st with content := [] } with
  | error err => rfl
  | ok q => rfl

/-- C4: the claim says `<s>` behaves like `<del>`/`<strike>` and completes
without error.  `_render_s` passes an extra leading `self` to
`_render_del`, so rendering any `<s>` raises a `TypeError` while the twin
handler `_render_strike` applies strikethrough as intended. -/
theorem C4_s_handler_raises :
    render 3 (.mk "s" [] (some "x") none []) (.blk (.paragraph [] []))
        (HtmlParser.init none)
      = .error (.arityError "_render_del() takes 3 positional arguments but 4 were given")
    ∧ render 8 (.mk "strike" [] (some "x") none []) (.blk (.paragraph [] []))
        (HtmlParser.init none)
      = .ok (.blk (.paragraph [⟨"x", none, ⟨false, false, false, true, false⟩⟩] []),
          HtmlParser.init none) :=
  ⟨rfl, rfl⟩

/-- C5: a structure error is raised exactly at the guarded table handlers:
a `thead` or `tr` rendered with a parent that is not a Table, or a
`td`/`th` rendered with a parent that is not a TableRow, fails immediately
with the corresponding error (and, the error being a hard failure, no
output is produced for that subtree); conversely every structure error a
render can return carries one of exactly those three messages. -/
theorem C5_structure_errors :
    (∀ (n : Nat) (e : Element) (p : Parent) (st : ParserState),
      e.tag = "thead" → p.isTable = false →
      render (n + 3) e p st = .error (.structureError "Invalid parent for <thead>"))
    ∧ (∀ (n : Nat) (e : Element) (p : Parent) (st : ParserState),
      e.tag = "tr" → p.isTable = false →
      render (n + 3) e p st = .error (.structureError "Invalid parent for <tr>"))
    ∧ (∀ (n : Nat) (e : Element) (p : Parent) (st : ParserState),
      (e.tag = "td" ∨ e.tag = "th") → p.isTableRow = false →
      render (n + 3) e p st = .error (.structureError "Invalid parent for <td>"))
    ∧ (∀ (f : Nat) (e : Element) (p : Parent) (st : ParserState) (m : String),
      render f e p st = .error (.structureError m) →
      m = "Invalid parent for <thead>" ∨ m = "Invalid parent for <tr>"
        ∨ m = "Invalid parent for <td>") := by
  refine ⟨?_, ?_, ?_, ?_⟩
  · intro n e p st ht hp
    cases e with
    | mk tg attrs tx tl cs =>
      simp only [Element.tag] at ht
      subst ht
      cases p with
      | root => rfl
      | blk b =>
        cases b <;> first
          | rfl
          | simp [Parent.isTable, Block.isTable] at hp
  · intro n e p st ht hp
    cases e with
    | mk tg attrs tx tl cs =>
      simp only [Element.tag] at ht
      subst ht
      cases p with
      | root => rfl
      | blk b =>
        cases b <;> first
          | rfl
          | simp [Parent.isTable, Block.isTable] at hp
  · intro n e p st ht hp
    cases e with
    | mk tg attrs tx tl cs =>
      simp only [Element.tag] at ht
      cases ht with
      | inl h1 =>
        subst h1
        cases p with
        | root => rfl
        | blk b =>
          cases b <;> first
            | rfl
            | simp [Parent.isTableRow, Block.isTableRow] at hp
      | inr h1 =>
        subst h1
        cases p with
        | root => rfl
        | blk b =>
          cases b <;> first
            | rfl
            | simp [Parent.isTableRow, Block.isTableRow] at hp
  · intro f e p st m h
    exact (classifyAll f).1 _ _ _ _ h

/-- C5 (witness): the guarded handlers applied at concrete bad parents. -/
theorem C5_witness :
    render 3 (.mk "thead" [] none none []) .root (HtmlParser.init none)
      = .error (.structureError "Invalid parent for <thead>")
    ∧ render 3 (.mk "tr" [] none none []) (.blk (.paragraph [] []))
        (HtmlParser.init none)
      = .error (.structureError "Invalid parent for <tr>")
    ∧ render 3 (.mk "td" [] (some "A") none []) .root (HtmlParser.init none)
      = .error (.structureError "Invalid parent for <td>")
    ∧ render 3 (.mk "th" [] (some "A") none []) .root (HtmlParser.init none)
      = .error (.structureError "Invalid parent for <td>") :=
  ⟨C5_structure_errors.1 0 (.mk "thead" [] none none []) .root
      (HtmlParser.init none) rfl rfl,
   C5_structure_errors.2.1 0 (.mk "tr" [] none none []) (.blk (.paragraph [] []))
      (HtmlParser.init none) rfl rfl,
   C5_structure_errors.2.2.1 0 (.mk "td" [] (some "A") none []) .root
      (HtmlParser.init none) (Or.inl rfl) rfl,
   C5_structure_errors.2.2.1 0 (.mk "th" [] (some "A") none []) .root
      (HtmlParser.init none) (Or.inr rfl) rfl⟩

/-- C6: no table of width 0 ever appears in the output content (the
invariant holds recursively through nested blocks), and a `table` element
whose processed table has width 0 is dropped silently: the parent comes
back unchanged while the side effects on the state are kept. -/
theorem C6_no_empty_table :
    (∀ (doc : Element) (st st' : ParserState), stOk st = true →
      HtmlParser.parse st doc = .ok st' → stOk st' = true)
    ∧ (∀ (n : Nat) (e : Element) (p : Parent) (st : ParserState)
        (q : Parent) (st2 : ParserState), e.tag = "table" →
      processContents n e (.blk (.table false [])) st = .ok (q, st2) →
      (q.getBlk (.table false [])).Width = 0 →
      render (n + 2) e p st = .ok (p, st2)) := by
  constructor
  · intro doc st st' hst h
    unfold HtmlParser.parse at h
    split at h
    · exact Except.noConfusion h
    · rename_i q heq
      obtain ⟨q1, q2⟩ := q
      simp only [Except.ok.injEq] at h
      rw [← h]
      exact ((invariantAll (fuelFor doc)).1 _ _ _ _ _ (by exact hst) (by rfl) heq).1
  · intro n e p st q st2 ht hpc hw
    cases e with
    | mk tg attrs tx tl cs =>
      simp only [Element.tag] at ht
      subst ht
      show applyHandler (n + 1) .table (.mk "table" attrs tx tl cs) p st = .ok (p, st2)
      simp only [applyHandler, hpc]
      simp [hw]

/-- C6 (witness): the invariant and the drop clause at a concrete empty
table. -/
theorem C6_witness :
    stOk (HtmlParser.init none) = true
    ∧ render 5 (.mk "table" [] none none []) .root (HtmlParser.init none)
        = .ok (.root, HtmlParser.init none) :=
  ⟨C6_no_empty_table.1 (.mk "table" [] none none []) (HtmlParser.init none)
      (HtmlParser.init none) rfl rfl,
   C6_no_empty_table.2 3 (.mk "table" [] none none []) .root (HtmlParser.init none)
      (.blk (.table false [])) (HtmlParser.init none) rfl rfl rfl⟩

/-- Parents whose `append` places a child block (the text-bearing family
and tables); rows and leaves own no child blocks. -/
def parentAccepts : Parent → Bool
  | .root => true
  | .blk b => b.isTextBlock || b.isTable

theorem blocksOf_appendB {p : Parent} (hacc : parentAccepts p = true)
    (st : ParserState) (b : Block) :
    blocksOf (Parent.appendB p st b).1 (Parent.appendB p st b).2
      = blocksOf p st ++ [b] := by
  cases p with
  | root => simp [Parent.appendB, blocksOf]
  | blk pb =>
    cases pb <;>
      simp [parentAccepts, Block.isTextBlock, Block.isTable] at hacc <;>
      simp [Parent.appendB, Block.appendChild, blocksOf, Block.childBlocks]

theorem blocksOf_stable {p : Parent} {st st' : ParserState}
    (h : st'.content = st.content) : blocksOf p st' = blocksOf p st := by
  cases p <;> simp [blocksOf, h]

theorem accepts_appendB (p : Parent) (st : ParserState) (b : Block) :
    parentAccepts (Parent.appendB p st b).1 = parentAccepts p := by
  cases p with
  | root => rfl
  | blk pb => cases pb <;> rfl

/-- The list loop on an all-`li` child list: one fresh item of the
requested kind per child, appended in order to the outer parent (plus the
pending item, when one was carried in). -/
theorem processList_all_li (cs : List Element) (hli : ∀ c ∈ cs, c.tag = "li") :
    ∀ (f : Nat) (k : LKind) (p : Parent) (cur : Option Block) (st : ParserState)
      (p' : Parent) (st' : ParserState),
      parentAccepts p = true →
      (∀ b0, cur = some b0 → b0.kind = (newListItem k).kind) →
      processList f k cs p cur st = .ok (p', st') →
      ∃ items, blocksOf p' st' = blocksOf p st ++ items
        ∧ items.length = cur.toList.length + cs.length
        ∧ ∀ b ∈ items, b.kind = (newListItem k).kind := by
  induction cs with
  | nil =>
    intro f k p cur st p' st' hacc hcur h
    simp only [processList] at h
    cases cur with
    | none =>
      simp only [flushItem, Except.ok.injEq] at h
      refine ⟨[], ?_, by simp, by simp⟩
      rw [fst_of_pair_eq h, snd_of_pair_eq h]
      simp
    | some b0 =>
      simp only [flushItem, Except.ok.injEq] at h
      refine ⟨[b0], ?_, by simp, ?_⟩
      · rw [fst_of_pair_eq h, snd_of_pair_eq h]
        exact blocksOf_appendB hacc st b0
      · intro b hb
        simp only [List.mem_singleton] at hb
        rw [hb]
        exact hcur b0 rfl
  | cons c rest ih =>
    intro f k p cur st p' st' hacc hcur h
    have hc : (c.tag == "li") = true := by
      simp only [beq_iff_eq]
      exact hli c (by simp)
    cases f with
    | zero => exact Except.noConfusion h
    | succ n =>
      simp only [processList, hc, if_true] at h
      cases hfi : flushItem p cur st with
      | mk p1 st1 =>
        rw [hfi] at h
        split at h
        · exact Except.noConfusion h
        · rename_i q heq
          obtain ⟨q1, q2⟩ := q
          have hfb : blocksOf p1 st1 = blocksOf p st ++ cur.toList := by
            cases cur with
            | none =>
              simp only [flushItem] at hfi
              injection hfi with hp1 hs1
              subst hp1; subst hs1
              simp
            | some b0 =>
              simp only [flushItem] at hfi
              have h1 := blocksOf_appendB hacc st b0
              rw [hfi] at h1
              simpa using h1
          have hacc1 : parentAccepts p1 = true := by
            cases cur with
            | none =>
              simp only [flushItem] at hfi
              injection hfi with hp1 hs1
              subst hp1
              exact hacc
            | some b0 =>
              simp only [flushItem] at hfi
              have h1 := accepts_appendB p st b0
              rw [hfi] at h1
              rw [h1]
              exact hacc
          have hcont : q2.content = st1.content := content_render_blk heq
          obtain ⟨hb', hkk⟩ := blk_of_pshape (shape_render heq) (newListItem k)
          obtain ⟨items', hbl, hlen, hkind⟩ :=
            ih (by intro cc hcc; exact hli cc (List.mem_cons_of_mem c hcc))
              n k p1 (some (q1.getBlk (newListItem k))) q2 p' st' hacc1
              (by intro b0 hb0
                  rw [Option.some.injEq] at hb0
                  subst hb0
                  exact hkk) h
          refine ⟨cur.toList ++ items', ?_, ?_, ?_⟩
          · rw [hbl, blocksOf_stable hcont, hfb, List.append_assoc]
          · have hlen2 : items'.length = 1 + rest.length := by
              simpa [Option.toList] using hlen
            cases cur <;> simp [Option.toList, hlen2] <;> omega
          · intro b hb
            rcases List.mem_append.mp hb with hb1 | hb2
            · cases cur with
              | none => simp [Option.toList] at hb1
              | some b0 =>
                simp only [Option.toList, List.mem_singleton] at hb1
                rw [hb1]
                exact hcur b0 rfl
            · exact hkind b hb2

/-- C7: a `ul` whose children are all `li` appends exactly one bulleted
list item per child directly to the outer parent (no wrapper block); a
nested list inside an `li` becomes child blocks of that item; a non-`li`
child is rendered into the most recently created item, or into the outer
parent when no item exists yet. -/
theorem C7_list_restructuring :
    (∀ (f : Nat) (e : Element) (p : Parent) (st : ParserState)
        (p' : Parent) (st' : ParserState),
      e.tag = "ul" → (∀ c ∈ e.children, c.tag = "li") →
      parentAccepts p = true →
      render f e p st = .ok (p', st') →
      ∃ items, blocksOf p' st' = blocksOf p st ++ items
        ∧ items.length = e.children.length
        ∧ ∀ b ∈ items, b.kind = BKind.bulletedListItem)
    ∧ render 40 (.mk "ul" [] none none
        [.mk "li" [] (some "A") none [],
         .mk "li" [] (some "B") none
           [.mk "ul" [] none none [.mk "li" [] (some "C") none []]]])
        .root (HtmlParser.init none)
      = .ok (.root,
          { title := none, meta := [], base_url := none,
            current_href := none, current_text_style := Annotations.plain,
            content := [.bulletedListItem [⟨"A", none, Annotations.plain⟩] [],
                        .bulletedListItem [⟨"B", none, Annotations.plain⟩]
                          [.bulletedListItem [⟨"C", none, Annotations.plain⟩] []]] })
    ∧ render 40 (.mk "ul" [] none none
        [.mk "p" [] (some "X") none [], .mk "li" [] (some "A") none []])
        .root (HtmlParser.init none)
      = .ok (.root,
          { title := none, meta := [], base_url := none,
            current_href := none, current_text_style := Annotations.plain,
            content := [.paragraph [⟨"X", none, Annotations.plain⟩] [],
                        .bulletedListItem [⟨"A", none, Annotations.plain⟩] []] })
    ∧ render 40 (.mk "ul" [] none none
        [.mk "li" [] (some "A") none [], .mk "p" [] (some "X") none []])
        .root (HtmlParser.init none)
      = .ok (.root,
          { title := none, meta := [], base_url := none,
            current_href := none, current_text_style := Annotations.plain,
            content := [.bulletedListItem [⟨"A", none, Annotations.plain⟩]
                          [.paragraph [⟨"X", none, Annotations.plain⟩] []]] }) := by
  refine ⟨?_, rfl, rfl, rfl⟩
  intro f e p st p' st' ht hli hacc h
  cases e with
  | mk tg attrs tx tl cs =>
    simp only [Element.tag] at ht
    subst ht
    simp only [Element.children] at hli ⊢
    cases f with
    | zero => exact Except.noConfusion h
    | succ n =>
      have h2 : applyHandler n Handler.ul (.mk "ul" attrs tx tl cs) p st
          = .ok (p', st') := h
      cases n with
      | zero => exact Except.noConfusion h2
      | succ m =>
        have h3 : processList m .bulleted cs p none st = .ok (p', st') := h2
        obtain ⟨items, hbl, hlen, hkind⟩ :=
          processList_all_li cs hli m .bulleted p none st p' st' hacc
            (by intro b0 hb0; exact Option.noConfusion hb0) h3
        exact ⟨items, hbl, by simpa [Option.toList] using hlen, hkind⟩

/-- C7 (witness): the all-`li` clause applied at a concrete two-item
list. -/
theorem C7_witness :
    ∃ items,
      blocksOf .root
          { title := none, meta := [], base_url := none,
            current_href := none, current_text_style := Annotations.plain,
            content := [.bulletedListItem [⟨"A", none, Annotations.plain⟩] [],
                        .bulletedListItem [⟨"B", none, Annotations.plain⟩] []] }
        = blocksOf .root (HtmlParser.init none) ++ items
      ∧ items.length = 2
      ∧ ∀ b ∈ items, b.kind = BKind.bulletedListItem :=
  C7_list_restructuring.1 20
    (.mk "ul" [] none none
      [.mk "li" [] (some "A") none [], .mk "li" [] (some "B") none []])
    .root (HtmlParser.init none) .root
    { title := none, meta := [], base_url := none, current_href := none,
      current_text_style := Annotations.plain,
      content := [.bulletedListItem [⟨"A", none, Annotations.plain⟩] [],
                  .bulletedListItem [⟨"B", none, Annotations.plain⟩] []] }
    rfl (by decide) rfl rfl

/-- The child loop on an empty list succeeds at any fuel. -/
theorem renderChildren_nil (n : Nat) (ht : Bool) (p : Parent) (st : ParserState) :
    renderChildren n ht [] p st = .ok (p, st) := by
  cases n <;> rfl

/-- C8: a `td`/`th` cell whose subtree has no visible text appends one
empty run (carrying the current link and style state) as a cell of the
parent row instead of being skipped, leaving the state untouched; on the
concrete table `<table><tr><td>A</td><td></td></tr></table>` the row gets
exactly the two cells "A" and "" and the table width is 2. -/
theorem C8_empty_cell_preserved :
    (∀ (n : Nat) (e : Element) (cells : List TextObject) (st : ParserState),
      (e.tag = "td" ∨ e.tag = "th") → elemHasText e = false →
      render (n + 3) e (.blk (.tableRow cells)) st
        = .ok (.blk (.tableRow
            (cells ++ [⟨"", st.current_href, st.current_text_style⟩])), st))
    ∧ render 40 (.mk "table" [] none none
        [.mk "tr" [] none none
          [.mk "td" [] (some "A") none [], .mk "td" [] none none []]])
        .root (HtmlParser.init none)
      = .ok (.root,
          { title := none, meta := [], base_url := none,
            current_href := none, current_text_style := Annotations.plain,
            content := [.table false
              [.tableRow [⟨"A", none, Annotations.plain⟩,
                          ⟨"", none, Annotations.plain⟩]]] })
    ∧ (Block.table false
        [.tableRow [⟨"A", none, Annotations.plain⟩,
                    ⟨"", none, Annotations.plain⟩]]).Width = 2 := by
  refine ⟨?_, rfl, rfl⟩
  intro n e cells st ht hnt
  cases e with
  | mk tg attrs tx tl cs =>
    simp only [Element.tag] at ht
    rcases ht with h1 | h1 <;> subst h1
    · show renderTd (n + 1) (.mk "td" attrs tx tl cs) (.blk (.tableRow cells)) st = _
      simp only [renderTd, hnt]
      rfl
    · show renderTd (n + 1) (.mk "th" attrs tx tl cs) (.blk (.tableRow cells)) st = _
      simp only [renderTd, hnt]
      rfl

/-- C8 (witness): the empty-cell clause at a concrete empty `td`. -/
theorem C8_witness :
    render 3 (.mk "td" [] none none []) (.blk (.tableRow []))
        (HtmlParser.init none)
      = .ok (.blk (.tableRow [⟨"", none, Annotations.plain⟩]),
          HtmlParser.init none) :=
  C8_empty_cell_preserved.1 0 (.mk "td" [] none none []) [] (HtmlParser.init none)
    (Or.inl rfl) rfl

/-- C9: text directly inside a `pre` (Code) block is preserved literally
(no condensing, no trimming), while the same text inside a `p` block is
whitespace-condensed and then edge-stripped; in particular the double
spaces survive in `<pre>  two  spaces  </pre>` but collapse to
"two spaces" in the paragraph. -/
theorem C9_pre_whitespace_literal :
    (∀ (n : Nat) (t : String) (tl : Option String) (p : Parent) (st : ParserState),
      textCounts (some t) = true →
      render (n + 3) (.mk "pre" [] (some t) tl []) p st
        = .ok (Parent.appendB p st
            (.code [⟨t, st.current_href, st.current_text_style⟩] [])))
    ∧ (∀ (n : Nat) (t : String) (tl : Option String) (p : Parent) (st : ParserState),
      textCounts (some t) = true →
      render (n + 3) (.mk "p" [] (some t) tl []) p st
        = .ok (Parent.appendB p st
            (.paragraph [⟨pyStrip (condense_text t),
              st.current_href, st.current_text_style⟩] [])))
    ∧ render 20 (.mk "pre" [] (some "  two  spaces  ") none []) .root
        (HtmlParser.init none)
      = .ok (.root,
          { title := none, meta := [], base_url := none,
            current_href := none, current_text_style := Annotations.plain,
            content := [.code [⟨"  two  spaces  ", none, Annotations.plain⟩] []] })
    ∧ render 20 (.mk "p" [] (some "  two  spaces  ") none []) .root
        (HtmlParser.init none)
      = .ok (.root,
          { title := none, meta := [], base_url := none,
            current_href := none, current_text_style := Annotations.plain,
            content := [.paragraph [⟨"two spaces", none, Annotations.plain⟩] []] }) := by
  refine ⟨?_, ?_, rfl, rfl⟩
  · intro n t tl p st hct
    have hpc : processContents (n + 1) (.mk "pre" [] (some t) tl [])
        (.blk (.code [] [])) st
        = .ok (.blk (.code [⟨t, st.current_href, st.current_text_style⟩] []), st) := by
      have hsh : elemHasTextShallow (.mk "pre" [] (some t) tl []) = true := by
        simp [elemHasTextShallow, Element.text, Element.children, hct]
      simp only [processContents, hsh, Bool.not_true, Element.children,
        renderChildren_nil]
      simp only [Bool.false_eq_true, if_false]
      rfl
    show blockFinish p (.code [] [])
        (processContents (n + 1) (.mk "pre" [] (some t) tl []) (.blk (.code [] [])) st) = _
    rw [hpc]
    rfl
  · intro n t tl p st hct
    have hpc : processContents (n + 1) (.mk "p" [] (some t) tl [])
        (.blk (.paragraph [] [])) st
        = .ok (.blk (.paragraph [⟨pyStrip (condense_text t),
            st.current_href, st.current_text_style⟩] []), st) := by
      have hsh : elemHasTextShallow (.mk "p" [] (some t) tl []) = true := by
        simp [elemHasTextShallow, Element.text, Element.children, hct]
      simp only [processContents, hsh, Bool.not_true, Element.children,
        renderChildren_nil]
      simp only [Bool.false_eq_true, if_false]
      rfl
    show blockFinish p (.paragraph [] [])
        (processContents (n + 1) (.mk "p" [] (some t) tl []) (.blk (.paragraph [] [])) st) = _
    rw [hpc]
    rfl

/-- C9 (witness): the two general clauses at the double-space text. -/
theorem C9_witness :
    render 5 (.mk "pre" [] (some "  a  b  ") none []) .root (HtmlParser.init none)
      = .ok (Parent.appendB .root (HtmlParser.init none)
          (.code [⟨"  a  b  ", none, Annotations.plain⟩] []))
    ∧ render 5 (.mk "p" [] (some "  a  b  ") none []) .root (HtmlParser.init none)
      = .ok (Parent.appendB .root (HtmlParser.init none)
          (.paragraph [⟨pyStrip (condense_text "  a  b  "), none,
            Annotations.plain⟩] [])) :=
  ⟨C9_pre_whitespace_literal.1 2 "  a  b  " none .root (HtmlParser.init none) rfl,
   C9_pre_whitespace_literal.2.1 2 "  a  b  " none .root (HtmlParser.init none) rfl⟩

/-- C10: rendering a `tr` visits only its direct `td` children: rows made
only of `th` (or other non-`td`) children produce a TableRow with zero
cells that is still appended to the table, with the state completely
untouched (the `th` handler is never invoked, so not even a nested `meta`
inside the `th` is recorded); with mixed children only the `td` cells
appear. -/
theorem C10_tr_visits_only_td :
    (∀ (n : Nat) (e : Element) (hh : Bool) (ch : List Block) (st : ParserState),
      e.tag = "tr" → (∀ c ∈ e.children, ¬c.tag = "td") →
      render (n + 2) e (.blk (.table hh ch)) st
        = .ok (.blk (.table hh (ch ++ [.tableRow []])), st))
    ∧ render 20 (.mk "tr" [] none none
        [.mk "th" [] (some "H") none
          [.mk "meta" [("name", "k"), ("content", "v")] none none []],
         .mk "td" [] (some "A") none []])
        (.blk (.table false [])) (HtmlParser.init none)
      = .ok (.blk (.table false [.tableRow [⟨"A", none, Annotations.plain⟩]]),
          HtmlParser.init none) := by
  refine ⟨?_, rfl⟩
  intro n e hh ch st ht hnotd
  cases e with
  | mk tg attrs tx tl cs =>
    simp only [Element.tag] at ht
    subst ht
    simp only [Element.children] at hnotd
    show applyHandler (n + 1) .tr (.mk "tr" attrs tx tl cs) (.blk (.table hh ch)) st = _
    have hfil : cs.filter (fun c => c.tag == "td") = [] := by
      rw [List.filter_eq_nil]
      intro a ha
      simpa using hnotd a ha
    simp only [applyHandler, Element.children, hfil, renderChildren_nil]
    rfl

/-- C10 (witness): the no-`td` clause at a concrete all-`th` row. -/
theorem C10_witness :
    render 2 (.mk "tr" [] none none [.mk "th" [] (some "H") none []])
        (.blk (.table true [])) (HtmlParser.init none)
      = .ok (.blk (.table true [.tableRow []]), HtmlParser.init none) :=
  C10_tr_visits_only_td.1 0 (.mk "tr" [] none none [.mk "th" [] (some "H") none []])
    true [] (HtmlParser.init none) rfl (by decide)

theorem ah_clear_bold {m : Nat} {e : Element} {p : Parent} {st : ParserState}
    {p' : Parent} {st' : ParserState} (h : applyHandler m .b e p st = .ok (p', st')) :
    st'.current_text_style.bold = false := by
  cases m with
  | zero => exact Except.noConfusion h
  | succ k =>
    simp only [applyHandler, styleExit, Except.map] at h
    split at h
    · exact Except.noConfusion h
    · simp only [Except.ok.injEq, Prod.mk.injEq] at h
      rw [← h.2]
      rfl

theorem ah_clear_italic {m : Nat} {e : Element} {p : Parent} {st : ParserState}
    {p' : Parent} {st' : ParserState} (h : applyHandler m .i e p st = .ok (p', st')) :
    st'.current_text_style.italic = false := by
  cases m with
  | zero => exact Except.noConfusion h
  | succ k =>
    simp only [applyHandler, styleExit, Except.map] at h
    split at h
    · exact Except.noConfusion h
    · simp only [Except.ok.injEq, Prod.mk.injEq] at h
      rw [← h.2]
      rfl

theorem ah_clear_underline {m : Nat} {e : Element} {p : Parent} {st : ParserState}
    {p' : Parent} {st' : ParserState} (h : applyHandler m .u e p st = .ok (p', st')) :
    st'.current_text_style.underline = false := by
  cases m with
  | zero => exact Except.noConfusion h
  | succ k =>
    simp only [applyHandler, styleExit, Except.map] at h
    split at h
    · exact Except.noConfusion h
    · simp only [Except.ok.injEq, Prod.mk.injEq] at h
      rw [← h.2]
      rfl

theorem ah_clear_strikethrough {m : Nat} {e : Element} {p : Parent}
    {st : ParserState} {p' : Parent} {st' : ParserState}
    (h : applyHandler m .del e p st = .ok (p', st')) :
    st'.current_text_style.strikethrough = false := by
  cases m with
  | zero => exact Except.noConfusion h
  | succ k =>
    simp only [applyHandler, styleExit, Except.map] at h
    split at h
    · exact Except.noConfusion h
    · simp only [Except.ok.injEq, Prod.mk.injEq] at h
      rw [← h.2]
      rfl

theorem ah_clear_code {m : Nat} {e : Element} {p : Parent} {st : ParserState}
    {p' : Parent} {st' : ParserState}
    (h : applyHandler m .code e p st = .ok (p', st')) :
    st'.current_text_style.code = false := by
  cases m with
  | zero => exact Except.noConfusion h
  | succ k =>
    simp only [applyHandler, styleExit, Except.map] at h
    split at h
    · exact Except.noConfusion h
    · simp only [Except.ok.injEq, Prod.mk.injEq] at h
      rw [← h.2]
      rfl

/-- C2 (amended): each style handler sets its flag true for the children
and clears it to `False` unconditionally on exit (not to the prior
value); children are processed with the same parent.  Consequently after
any completed render of a style tag the corresponding flag is off, so in
`<b>X<b>Y</b>Z</b>` the text after the inner close is unstyled even
inside the outer tag (`<s>` never completes, see the `_render_s`
defect). -/
theorem C2_style_flag_cleared :
    (∀ (f : Nat) (e : Element) (p : Parent) (st : ParserState)
        (p' : Parent) (st' : ParserState),
      render f e p st = .ok (p', st') →
      (((e.tag = "b" ∨ e.tag = "strong") → st'.current_text_style.bold = false)
       ∧ ((e.tag = "i" ∨ e.tag = "em") → st'.current_text_style.italic = false)
       ∧ ((e.tag = "u" ∨ e.tag = "ins") → st'.current_text_style.underline = false)
       ∧ ((e.tag = "del" ∨ e.tag = "strike") →
           st'.current_text_style.strikethrough = false)
       ∧ ((e.tag = "code" ∨ e.tag = "kbd" ∨ e.tag = "samp" ∨ e.tag = "var") →
           st'.current_text_style.code = false)))
    ∧ (∀ (n : Nat) (e : Element) (p : Parent) (st : ParserState),
      e.tag = "b" →
      render (n + 2) e p st
        = styleExit setBold (processContents n e p
            { st with current_text_style := setBold st.current_text_style true }))
    ∧ (∀ (n : Nat) (e : Element) (p : Parent) (st : ParserState),
      e.tag = "i" →
      render (n + 2) e p st
        = styleExit setItalic (processContents n e p
            { st with current_text_style := setItalic st.current_text_style true })) := by
  refine ⟨?_, ?_, ?_⟩
  · intro f e p st p' st' h
    cases e with
    | mk tg attrs tx tl cs =>
      refine ⟨?_, ?_, ?_, ?_, ?_⟩
      · intro htag
        simp only [Element.tag] at htag
        rcases htag with h1 | h1 <;> subst h1
        · cases f with
          | zero => exact Except.noConfusion h
          | succ m =>
            exact ah_clear_bold (show applyHandler m .b (.mk "b" attrs tx tl cs) p st
              = .ok (p', st') from h)
        · cases f with
          | zero => exact Except.noConfusion h
          | succ m =>
            have h2 : applyHandler m .strong (.mk "strong" attrs tx tl cs) p st
                = .ok (p', st') := h
            cases m with
            | zero => exact Except.noConfusion h2
            | succ k =>
              exact ah_clear_bold (show applyHandler k .b (.mk "strong" attrs tx tl cs) p st
                = .ok (p', st') from h2)
      · intro htag
        simp only [Element.tag] at htag
        rcases htag with h1 | h1 <;> subst h1
        · cases f with
          | zero => exact Except.noConfusion h
          | succ m =>
            exact ah_clear_italic (show applyHandler m .i (.mk "i" attrs tx tl cs) p st
              = .ok (p', st') from h)
        · cases f with
          | zero => exact Except.noConfusion h
          | succ m =>
            have h2 : applyHandler m .em (.mk "em" attrs tx tl cs) p st
                = .ok (p', st') := h
            cases m with
            | zero => exact Except.noConfusion h2
            | succ k =>
              exact ah_clear_italic (show applyHandler k .i (.mk "em" attrs tx tl cs) p st
                = .ok (p', st') from h2)
      · intro htag
        simp only [Element.tag] at htag
        rcases htag with h1 | h1 <;> subst h1
        · cases f with
          | zero => exact Except.noConfusion h
          | succ m =>
            exact ah_clear_underline (show applyHandler m .u (.mk "u" attrs tx tl cs) p st
              = .ok (p', st') from h)
        · cases f with
          | zero => exact Except.noConfusion h
          | succ m =>
            have h2 : applyHandler m .ins (.mk "ins" attrs tx tl cs) p st
                = .ok (p', st') := h
            cases m with
            | zero => exact Except.noConfusion h2
            | succ k =>
              exact ah_clear_underline
                (show applyHandler k .u (.mk "ins" attrs tx tl cs) p st
                  = .ok (p', st') from h2)
      · intro htag
        simp only [Element.tag] at htag
        rcases htag with h1 | h1 <;> subst h1
        · cases f with
          | zero => exact Except.noConfusion h
          | succ m =>
            exact ah_clear_strikethrough
              (show applyHandler m .del (.mk "del" attrs tx tl cs) p st
                = .ok (p', st') from h)
        · cases f with
          | zero => exact Except.noConfusion h
          | succ m =>
            have h2 : applyHandler m .strike (.mk "strike" attrs tx tl cs) p st
                = .ok (p', st') := h
            cases m with
            | zero => exact Except.noConfusion h2
            | succ k =>
              exact ah_clear_strikethrough
                (show applyHandler k .del (.mk "strike" attrs tx tl cs) p st
                  = .ok (p', st') from h2)
      · intro htag
        simp only [Element.tag] at htag
        rcases htag with h1 | h1 | h1 | h1 <;> subst h1
        · cases f with
          | zero => exact Except.noConfusion h
          | succ m =>
            exact ah_clear_code (show applyHandler m .code (.mk "code" attrs tx tl cs) p st
              = .ok (p', st') from h)
        · cases f with
          | zero => exact Except.noConfusion h
          | succ m =>
            have h2 : applyHandler m .kbd (.mk "kbd" attrs tx tl cs) p st
                = .ok (p', st') := h
            cases m with
            | zero => exact Except.noConfusion h2
            | succ k =>
              exact ah_clear_code (show applyHandler k .code (.mk "kbd" attrs tx tl cs) p st
                = .ok (p', st') from h2)
        · cases f with
          | zero => exact Except.noConfusion h
          | succ m =>
            have h2 : applyHandler m .samp (.mk "samp" attrs tx tl cs) p st
                = .ok (p', st') := h
            cases m with
            | zero => exact Except.noConfusion h2
            | succ k =>
              exact ah_clear_code (show applyHandler k .code (.mk "samp" attrs tx tl cs) p st
                = .ok (p', st') from h2)
        · cases f with
          | zero => exact Except.noConfusion h
          | succ m =>
            have h2 : applyHandler m .var (.mk "var" attrs tx tl cs) p st
                = .ok (p', st') := h
            cases m with
            | zero => exact Except.noConfusion h2
            | succ k =>
              exact ah_clear_code (show applyHandler k .code (.mk "var" attrs tx tl cs) p st
                = .ok (p', st') from h2)
  · intro n e p st htag
    cases e with
    | mk tg attrs tx tl cs =>
      simp only [Element.tag] at htag
      subst htag
      rfl
  · intro n e p st htag
    cases e with
    | mk tg attrs tx tl cs =>
      simp only [Element.tag] at htag
      subst htag
      rfl

/-- C2 (witness): the clear-on-exit clause applied at a concrete bold
element. -/
theorem C2_witness : (HtmlParser.init none).current_text_style.bold = false :=
  ((C2_style_flag_cleared.1 8 (.mk "b" [] (some "x") none [])
      (.blk (.paragraph [] [])) (HtmlParser.init none)
      (.blk (.paragraph [⟨"x", none, ⟨true, false, false, false, false⟩⟩] []))
      (HtmlParser.init none) rfl).1) (Or.inl rfl)
